import Mathlib

/-!
# Verification of the wyag object database core (`libwyag.py`)

Shallow embedding of the object model and codecs of `libwyag.py`:
byte strings are `List Nat` (one entry per byte), Python `bytes.find`
returns `-1` as an `Int`, Python slices are modelled with Python's
clamping semantics, and the recursive/looping parsers are given an
explicit fuel parameter (running out of fuel marks divergence).
-/

/-- A byte string, one `Nat` per byte (ASCII codes where relevant:
space = 32, newline = 10, NUL = 0, slash = 47). -/
abbrev Bytes := List Nat

/-- Python index/slice-bound normalisation: a negative index counts from
the end (clamped at 0). Used for slice bounds. -/
def pyBound (len : Nat) (i : Int) : Nat :=
  if i < 0 then (len + i).toNat else i.toNat

/-- Python slice `raw[a:b]` with Python's clamping semantics. -/
def pySlice (raw : Bytes) (a b : Int) : Bytes :=
  (raw.take (pyBound raw.length b)).drop (pyBound raw.length a)

/-- First index of byte `c` in `l`, if any (helper for `bfind`). -/
def bidx (l : Bytes) (c : Nat) : Option Nat :=
  match l with
  | [] => none
  | b :: r => if b = c then some 0 else (bidx r c).map (· + 1)

/-- Python `raw.find(bytes([c]), start)`: first index of `c` at or after
`start`, or `-1` when absent. -/
def bfind (raw : Bytes) (c : Nat) (start : Int) : Int :=
  let s : Nat := pyBound raw.length start
  match bidx (raw.drop s) c with
  | some i => (s + i : Nat)
  | none => -1



/-! ## KVLM model (ordered multi-map, `collections.OrderedDict` in the source)

A KVLM is an ordered association list from `Option Bytes` (header key, or
`none` for the distinguished message slot) to either a single value or an
ordered list of values, exactly the shapes `kvlm_parse` stores. -/

/-- A stored KVLM value: Python `bytes` or `list` of `bytes`. -/
inductive KvVal where
  | one (v : Bytes)
  | many (vs : List Bytes)
deriving DecidableEq, Repr

/-- Ordered mapping, insertion order preserved (Python `OrderedDict`). -/
abbrev Kvlm := List (Option Bytes × KvVal)

/-- Python `dct[k]` read (first — and only, for dict-built lists — match). -/
def dctLookup (d : Kvlm) (k : Option Bytes) : Option KvVal :=
  match d with
  | [] => none
  | (k2, v) :: rest => if k2 = k then some v else dctLookup rest k

/-- Python `dct[k] = v`: update in place when the key exists (its position
is kept), otherwise append at the end. -/
def dctSet (d : Kvlm) (k : Option Bytes) (v : KvVal) : Kvlm :=
  match d with
  | [] => [(k, v)]
  | (k2, v2) :: rest => if k2 = k then (k2, v) :: rest else (k2, v2) :: dctSet rest k v

/-- Python `v.replace(b'\n', b'\n ')` (`kvlm_serialize`, line 599). -/
def expandNl : Bytes → Bytes
  | [] => []
  | 10 :: r => 10 :: 32 :: expandNl r
  | b :: r => b :: expandNl r

/-- Python `v.replace(b'\n ', b'\n')` (`kvlm_parse`, line 569): replace
non-overlapping occurrences left to right. -/
def foldNl : Bytes → Bytes
  | [] => []
  | [b] => [b]
  | b :: c :: r => if b = 10 ∧ c = 32 then 10 :: foldNl r else b :: foldNl (c :: r)

/-- Result of the continuation-line scan (the `while True` loop of
`kvlm_parse`, lines 562-565). `indexError` models the Python `IndexError`
raised by `raw[end + 1]` when `end + 1 == len(raw)`; `outOfFuel` marks a
run that did not finish within the given fuel. -/
inductive SRes where
  | ok (e : Int)
  | indexError
  | outOfFuel
deriving DecidableEq, Repr

/-- The continuation-line scan of `kvlm_parse` (lines 562-565):
`end = raw.find(b'\n', end + 1)`, then `if raw[end + 1] != ord(' '): break`.
When `find` fails it returns `-1`, so the subsequent index test reads
`raw[0]`; when the found newline is the last byte, `raw[end + 1]` raises
`IndexError`. -/
def scanEnd (raw : Bytes) : Nat → Int → SRes
  | 0, _ => .outOfFuel
  | fuel + 1, e =>
    let e2 := bfind raw 10 (e + 1)
    let idx := (e2 + 1).toNat
    if h : idx < raw.length then
      if raw.get ⟨idx, h⟩ = 32 then scanEnd raw fuel e2 else .ok e2
    else .indexError

/-- Result of `kvlm_parse`. `assertError` models the failing
`assert nl == start` (line 552); `indexError` propagates from the scan;
`outOfFuel` marks divergence within the given fuel. -/
inductive PRes where
  | ok (dct : Kvlm)
  | assertError
  | indexError
  | outOfFuel
deriving DecidableEq, Repr

/-- The store step of `kvlm_parse` (lines 571-581): on the first
duplicate the stored value becomes a two-element list `[old, new]`; later
duplicates append; values never overwrite each other. -/
def kvlmStore (dct : Kvlm) (key value : Bytes) : Kvlm :=
  match dctLookup dct (some key) with
  | some (.many vs) => dctSet dct (some key) (.many (vs ++ [value]))
  | some (.one v) => dctSet dct (some key) (.many [v, value])
  | none => dctSet dct (some key) (.one value)

/-- `kvlm_parse(raw, start, dct)` (lines 530-583). The Python function is
recursive with no structurally decreasing argument (`start` can move
backwards when the scan returns `-1`), so the embedding takes explicit
fuel; the top-level Python call is `kvlm_parse raw 0 [] fuel` (the
`if not dct` line only replaces a missing dict with a fresh empty one). -/
def kvlm_parse (raw : Bytes) : Nat → Kvlm → Nat → PRes
  | _, _, 0 => .outOfFuel
  | start, dct, fuel + 1 =>
    let spc := bfind raw 32 start
    let nl := bfind raw 10 start
    if spc < 0 ∨ nl < spc then
      -- base case, lines 551-554: blank line, the rest is the message
      if nl = (start : Int) then
        .ok (dctSet dct none (.one (pySlice raw ((start : Int) + 1) raw.length)))
      else .assertError
    else
      -- recursive case, lines 559-583
      let key := pySlice raw start spc
      match scanEnd raw fuel start with
      | .outOfFuel => .outOfFuel
      | .indexError => .indexError
      | .ok e =>
        let value := foldNl (pySlice raw (spc + 1) e)
        kvlm_parse raw (e + 1).toNat (kvlmStore dct key value) fuel

/-- Python exceptions surfaced by the object layer.
`keyError`: `kvlm[None]` with the message slot missing (line 602);
`typeError`: concatenating `bytes` with a `list` value there (line 602),
and `os.path.isfile(None)` on line 355 after `repo_file` with
`mkdir=False` returned `None` for an absent shard directory;
`badLength`: "malformed object: bad length" (line 369);
`unknownType`: unrecognized type tag (line 377);
`valueError`: `int(...)` on non-numeric text (lines 367, 492);
`overflowError`: `int.to_bytes(20, ...)` on a value over 20 bytes (line 493);
`nameError`: reference to a name the module never defines (`object_write`
on line 215, `GitTag` on lines 212 and 374);
`assertError` / `indexError`: as in the parsers; `outOfFuel`: divergence. -/
inductive Err where
  | keyError
  | typeError
  | badLength
  | unknownType
  | valueError
  | overflowError
  | nameError
  | assertError
  | indexError
  | outOfFuel
deriving DecidableEq, Repr

/-- Normalisation `if type(val) != list: val = [val]` (lines 595-596). -/
def valList : KvVal → List Bytes
  | .one v => [v]
  | .many vs => vs

/-- One physical header line `k + b' ' + v.replace(b'\n', b'\n ') + b'\n'`
(line 599). -/
def serLine (k v : Bytes) : Bytes := k ++ 32 :: (expandNl v ++ [10])

/-- The inner loop of line 598-599: one line per stored value of `k`. -/
def serLines (k : Bytes) : List Bytes → Bytes
  | [] => []
  | v :: vs => serLine k v ++ serLines k vs

/-- The header loop of `kvlm_serialize` (lines 590-599), walking keys in
stored order and skipping the `None` message slot. -/
def serHeaders : Kvlm → Bytes
  | [] => []
  | (none, _) :: rest => serHeaders rest
  | (some k, val) :: rest => serLines k (valList val) ++ serHeaders rest

/-- `kvlm_serialize(kvlm)` (lines 586-604): header lines in stored key
order, then a blank line, the message, and a final newline. The message
lookup `kvlm[None]` happens on line 602; a mapping without the `None` key
makes the whole call raise `KeyError` (no bytes are returned). -/
def kvlm_serialize (kvlm : Kvlm) : Except Err Bytes :=
  match dctLookup kvlm none with
  | none => .error .keyError
  | some (.many _) => .error .typeError
  | some (.one m) => .ok (serHeaders kvlm ++ 10 :: (m ++ [10]))

/-- `GitCommit.init` (line 421-422): a freshly constructed `GitCommit()`
carries an empty kvlm (`self.kvlm = dict()`). -/
def GitCommit_init_kvlm : Kvlm := []

/-! ## Numeric/text conversions used by the codecs -/

/-- Python `str(n).encode()`: ASCII decimal digits of `n` (line 387). -/
def natToDec (n : Nat) : Bytes :=
  if h : n < 10 then [48 + n]
  else natToDec (n / 10) ++ [48 + n % 10]
decreasing_by
  exact Nat.div_lt_self (by omega) (by omega)

/-- Python whitespace accepted (and stripped) by `int(...)`. -/
def isPySpace (c : Nat) : Bool := c = 32 || c = 9 || c = 10 || c = 11 || c = 12 || c = 13

/-- ASCII decimal digit test. -/
def isDecDigit (c : Nat) : Bool := 48 ≤ c && c ≤ 57

/-- Value of a run of ASCII decimal digits. -/
def decVal (ds : Bytes) : Nat := ds.foldl (fun acc c => acc * 10 + (c - 48)) 0

/-- Python `int(s)` for base 10 (line 367): surrounding whitespace is
ignored, an optional single sign precedes the digits, at least one digit
is required. (Underscore digit grouping is not modelled; no caller feeds
underscores.) -/
def pyInt (b : Bytes) : Option Int :=
  let s := ((b.dropWhile isPySpace).reverse.dropWhile isPySpace).reverse
  match s with
  | [] => none
  | c :: ds =>
    if c = 45 then
      if ds ≠ [] ∧ ds.all isDecDigit then some (-(decVal ds : Int)) else none
    else if c = 43 then
      if ds ≠ [] ∧ ds.all isDecDigit then some (decVal ds) else none
    else
      if (c :: ds).all isDecDigit then some (decVal (c :: ds)) else none

/-- Lowercase hex digit character for a nibble (Python `format(..., "x")`). -/
def hexDigitChar (n : Nat) : Nat := if n < 10 then 48 + n else 87 + n

/-- Python `format(n, "040x")` (line 463): 40 lowercase hex digits,
zero-padded on the left. Every caller passes `n < 16 ^ 40` (the value of
at most 20 raw bytes), so the fixed width is exact. -/
def natToHex40 (n : Nat) : Bytes :=
  (List.range 40).map (fun i => hexDigitChar (n / 16 ^ (39 - i) % 16))

/-- Value of one hex digit character, upper or lower case. -/
def hexDigitVal (c : Nat) : Option Nat :=
  if 48 ≤ c ∧ c ≤ 57 then some (c - 48)
  else if 97 ≤ c ∧ c ≤ 102 then some (c - 87)
  else if 65 ≤ c ∧ c ≤ 70 then some (c - 55)
  else none

def hexValAux : Bytes → Nat → Option Nat
  | [], acc => some acc
  | c :: r, acc =>
    match hexDigitVal c with
    | some d => hexValAux r (acc * 16 + d)
    | none => none

/-- Python `int(s, 16)` (line 492) on a bare digit run: at least one hex
digit, upper or lower case. (Whitespace, sign and the `0x` prefix that
`int(_, 16)` would also accept are not modelled; tree shas are bare hex.) -/
def hexVal (b : Bytes) : Option Nat :=
  if b = [] then none else hexValAux b 0

/-- Python `int.from_bytes(bs, "big")` (line 461). -/
def bytesToNat (bs : Bytes) : Nat := bs.foldl (fun acc b => acc * 256 + b) 0

/-- Python `n.to_bytes(20, byteorder="big")` (line 493), defined for
`n < 256 ^ 20`. -/
def natToBytesBE20 (n : Nat) : Bytes :=
  (List.range 20).map (fun i => n / 256 ^ (19 - i) % 256)

/-! ## Object framing (`write_object` / `object_read`) -/

/-- The four type-tag byte strings. -/
def blobTag : Bytes := [98, 108, 111, 98]
def commitTag : Bytes := [99, 111, 109, 109, 105, 116]
def treeTag : Bytes := [116, 114, 101, 101]
def tagTag : Bytes := [116, 97, 103]

/-- The framed byte layout `fmt + b' ' + str(len(data)).encode() + b'\x00'
+ data` built by `write_object` (line 387). -/
def frame (fmt data : Bytes) : Bytes :=
  fmt ++ 32 :: (natToDec data.length ++ 0 :: data)

/-- The frame-decoding portion of `object_read` (lines 362-369 plus the
payload slice on line 380): find the first space (end of the type tag) and
the first NUL after it (end of the decimal length), parse and validate the
declared length against the remaining byte count, and return the type tag
together with the payload. -/
def read_frame (raw : Bytes) : Except Err (Bytes × Bytes) :=
  let x := bfind raw 32 0
  let fmt := pySlice raw 0 x
  let y := bfind raw 0 x
  match pyInt (pySlice raw x y) with
  | none => .error .valueError
  | some size =>
    if size = (raw.length : Int) - y - 1 then .ok (fmt, pySlice raw (y + 1) raw.length)
    else .error .badLength

/-! ## Tree codec -/

/-- One tree entry (`GitTreeLeaf`, lines 424-428). `path` holds the UTF-8
bytes of the Python `str` path (`.decode("utf8")` on parse and
`.encode("utf8")` on serialize cancel; decode errors on invalid UTF-8 are
not modelled); `sha` holds the 40 hex character codes of the object id. -/
structure GitTreeLeaf where
  mode : Bytes
  path : Bytes
  sha : Bytes
deriving DecidableEq, Repr

/-- `tree_parse_one(raw, start)` (lines 443-464). The mode is the run up
to the first space; its width must be 5 or 6 (`assert`, line 446); a
5-byte mode is widened to 6 bytes by prefixing `b" "` — an ASCII space
(line 452). Then the NUL-terminated path and 20 raw digest bytes follow. -/
def tree_parse_one (raw : Bytes) (start : Int) : Except Err (Int × GitTreeLeaf) :=
  let x := bfind raw 32 start
  if x - start = 5 ∨ x - start = 6 then
    let mode := pySlice raw start x
    let mode2 := if mode.length = 5 then 32 :: mode else mode
    let y := bfind raw 0 x
    let path := pySlice raw (x + 1) y
    let raw_sha := bytesToNat (pySlice raw (y + 1) (y + 21))
    .ok (y + 21, ⟨mode2, path, natToHex40 raw_sha⟩)
  else .error .assertError

/-- The `while pos < max` loop of `tree_parse` (lines 467-474). `pos` is
an `Int` because `tree_parse_one` can return `y + 21` with `y = -1`; that
also lets `pos` move backwards, so the loop takes fuel. -/
def tree_parse_from (raw : Bytes) : Int → Nat → Except Err (List GitTreeLeaf)
  | _, 0 => .error .outOfFuel
  | pos, fuel + 1 =>
    if pos < (raw.length : Int) then
      match tree_parse_one raw pos with
      | .error e => .error e
      | .ok (pos2, leaf) =>
        match tree_parse_from raw pos2 fuel with
        | .error e => .error e
        | .ok rest => .ok (leaf :: rest)
    else .ok []

/-- `tree_parse(raw)` (lines 467-474). -/
def tree_parse (raw : Bytes) (fuel : Nat) : Except Err (List GitTreeLeaf) :=
  tree_parse_from raw 0 fuel

/-- `tree_leaf_sort_key(leaf)` (lines 477-481): the path itself when the
mode starts with `b'10'` (a regular file), otherwise the path with `'/'`
appended. Paths are compared as Python `str`; for valid UTF-8 the
bytewise lexicographic order used here coincides with the code-point
order Python uses. -/
def tree_leaf_sort_key (leaf : GitTreeLeaf) : Bytes :=
  if leaf.mode.take 2 = [49, 48] then leaf.path else leaf.path ++ [47]

/-- Lexicographic comparison of byte strings (Python `<=` on `str` /
`bytes`): a prefix sorts before its extensions. -/
def bytesLe : Bytes → Bytes → Bool
  | [], _ => true
  | _ :: _, [] => false
  | a :: as, b :: bs => if a < b then true else if b < a then false else bytesLe as bs

/-- Comparison of tree leaves by `tree_leaf_sort_key` (the `key=` argument
of `obj.items.sort`, line 485). -/
def leafLe (a b : GitTreeLeaf) : Prop :=
  bytesLe (tree_leaf_sort_key a) (tree_leaf_sort_key b) = true

instance : DecidableRel leafLe := fun a b => by
  unfold leafLe; infer_instance

/-- One serialized entry (loop body, lines 487-493): mode bytes, a space,
the path bytes, a NUL, and the 20-byte big-endian digest obtained from
`int(i.sha, 16)`. -/
def serLeaf (leaf : GitTreeLeaf) : Except Err Bytes :=
  match hexVal leaf.sha with
  | none => .error .valueError
  | some n =>
    if 256 ^ 20 ≤ n then .error .overflowError
    else .ok (leaf.mode ++ 32 :: (leaf.path ++ 0 :: natToBytesBE20 n))

def serLeaves : List GitTreeLeaf → Except Err Bytes
  | [] => .ok []
  | leaf :: rest =>
    match serLeaf leaf with
    | .error e => .error e
    | .ok b =>
      match serLeaves rest with
      | .error e => .error e
      | .ok r => .ok (b ++ r)

/-- `tree_serialize(obj)` (lines 484-495): sort the entries in place with
`tree_leaf_sort_key`, then concatenate the serialized entries. Python
`list.sort` is a stable sort; `List.insertionSort` is also stable, so for
the total preorder `leafLe` the two produce identical output on every
input. -/
def tree_serialize (items : List GitTreeLeaf) : Except Err Bytes :=
  serLeaves (items.insertionSort leafLe)

/-! ## Object variants and the store -/

/-- The object variants the module can actually construct. The source
dispatches on four tags, but the `GitTag` class referenced on lines 212
and 374 is never defined, so no tag-typed object value can exist. -/
inductive GitObj where
  | blob (d : Bytes)
  | commit (kvlm : Kvlm)
  | tree (items : List GitTreeLeaf)
deriving DecidableEq, Repr

/-- The `fmt` class attribute (lines 403, 413, 431). -/
def GitObj.fmt : GitObj → Bytes
  | .blob _ => blobTag
  | .commit _ => commitTag
  | .tree _ => treeTag

/-- Variant `serialize` dispatch (lines 405-406, 418-419, 436-437). -/
def GitObj.serialize : GitObj → Except Err Bytes
  | .blob d => .ok d
  | .commit k => kvlm_serialize k
  | .tree t => tree_serialize t

/-- The on-disk object store under `.git/objects`, as a list of
`(shard directory, filename) ↦ file contents` entries. -/
abbrev Store := List ((Bytes × Bytes) × Bytes)

/-- `os.path.exists` / file read on the store model. -/
def storeLookup (st : Store) (p : Bytes × Bytes) : Option Bytes :=
  match st with
  | [] => none
  | (q, c) :: rest => if q = p then some c else storeLookup rest p

/-- The sharded object path `sha[0:2] / sha[2:]` (lines 353 and 393). -/
def shardPath (sha : Bytes) : Bytes × Bytes := (sha.take 2, sha.drop 2)

/-- `write_object(obj, repo)` (lines 382-399). `sha1hex` abstracts
`hashlib.sha1(...).hexdigest()` (40 lowercase hex character codes) and
`compress` abstracts `zlib.compress`; both are external library calls.
With a repo the compressed frame is written only if no file exists at the
derived path; the hex id is returned either way. -/
def write_object (sha1hex : Bytes → Bytes) (compress : Bytes → Bytes)
    (obj : GitObj) (repo : Option Store) : Except Err (Option Store × Bytes) :=
  match obj.serialize with
  | .error e => .error e
  | .ok data =>
    let result := frame obj.fmt data
    let sha := sha1hex result
    match repo with
    | none => .ok (none, sha)
    | some st =>
      let path := shardPath sha
      if (storeLookup st path).isSome then .ok (some st, sha)
      else .ok (some (st ++ [(path, compress result)]), sha)

/-- Conversion of a kvlm parse result into the exception it raises. -/
def presToExcept : PRes → Except Err Kvlm
  | .ok d => .ok d
  | .assertError => .error .assertError
  | .indexError => .error .indexError
  | .outOfFuel => .error .outOfFuel

/-- `object_read(repo, sha)` (lines 349-380). Line 353 resolves the path
with `repo_file(repo, "objects", sha[0:2], sha[2:])` and `mkdir=False`
(lines 504-509): when the shard directory `.git/objects/<xx>` exists,
`repo_dir` returns it and `repo_file` yields the path string; when it is
absent, `repo_dir` returns `None` (line 527), `repo_file` falls through
returning `None`, and `os.path.isfile(None)` on line 355 raises an
uncaught `TypeError`. `dirs` lists the existing shard directories (the
model keeps entries under `.git/objects` as shard directories only, so
`repo_dir`'s exists-but-not-a-directory branch cannot arise). With the
path resolved, a missing file returns `None` (modelled `.ok none`) before
anything is opened or parsed; otherwise the file is decompressed, the
frame decoded, and the variant constructor run on the payload. The
`case b'tag'` arm names the undefined `GitTag` class and so raises
`NameError` (line 374). -/
def object_read (decompress : Bytes → Bytes) (dirs : List Bytes) (st : Store)
    (sha : Bytes) (fuel : Nat) : Except Err (Option GitObj) :=
  if (shardPath sha).1 ∉ dirs then .error .typeError
  else match storeLookup st (shardPath sha) with
  | none => .ok none
  | some file =>
    let raw := decompress file
    match read_frame raw with
    | .error e => .error e
    | .ok (fmt, payload) =>
      if fmt = commitTag then
        (presToExcept (kvlm_parse payload 0 [] fuel)).map (fun d => some (.commit d))
      else if fmt = treeTag then
        (tree_parse payload fuel).map (fun t => some (.tree t))
      else if fmt = tagTag then
        .error .nameError
      else if fmt = blobTag then
        .ok (some (.blob payload))
      else
        .error .unknownType

/-- `object_hash(fd, fmt, repo)` (lines 204-215). The constructor chosen
by the `match fmt` block runs first (for commits this parses the kvlm, for
trees the entries; `GitTag(data)` raises `NameError` since no `GitTag`
class exists). If construction succeeds, line 215 calls `object_write`,
but no function of that name is defined anywhere in the module (the writer
is `write_object`), so the call raises `NameError` before any hashing or
store interaction can happen. -/
def object_hash (data : Bytes) (fmt : Bytes) (_repo : Option Store)
    (fuel : Nat) : Except Err (Option Store × Bytes) :=
  if fmt = commitTag then
    match presToExcept (kvlm_parse data 0 [] fuel) with
    | .error e => .error e
    | .ok _ => .error .nameError
  else if fmt = treeTag then
    match tree_parse data fuel with
    | .error e => .error e
    | .ok _ => .error .nameError
  else if fmt = tagTag then
    .error .nameError
  else if fmt = blobTag then
    .error .nameError
  else
    .error .nameError

/-! ## Auxiliary notions used only by the statements and proofs -/

/-- A byte string is continuation-closed when every newline in it is
immediately followed (inside the string) by a space — the shape
`v.replace(b'\n', b'\n ')` produces. In particular it cannot end in a
newline. -/
def contOk : Bytes → Bool
  | [] => true
  | [b] => b ≠ 10
  | b :: c :: r => if b = 10 then c = 32 && contOk (c :: r) else contOk (c :: r)

/-- Physical header lines `(key, value)` in emission order; `serPhys`
concatenates their encodings. -/
def serPhys : List (Bytes × Bytes) → Bytes
  | [] => []
  | (k, v) :: rest => serLine k v ++ serPhys rest

/-- The physical lines a kvlm's header section serializes to: one line
per stored value, keys in stored order, the message slot skipped. -/
def linesOf : Kvlm → List (Bytes × Bytes)
  | [] => []
  | (none, _) :: rest => linesOf rest
  | (some k, val) :: rest => (valList val).map (fun v => (k, v)) ++ linesOf rest

/-- The value shape `kvlm_parse` builds from the successive raw values of
one key: a bare value when the key occurred once, the ordered list when it
occurred more often. -/
def mkVal : List Bytes → KvVal
  | [] => .many []
  | [v] => .one v
  | v1 :: v2 :: vs => .many (v1 :: v2 :: vs)

/-- A header key that a parse can produce and serialization round-trips:
nonempty, no space, no newline. -/
abbrev goodKey (k : Bytes) : Prop := k ≠ [] ∧ 32 ∉ k ∧ 10 ∉ k

/-- A header value slot as `kvlm_parse` builds them: lists only ever
arise from duplicated keys, so they have at least two elements. -/
def wfVal : KvVal → Prop
  | .one _ => True
  | .many vs => 2 ≤ vs.length

/-- The parse of `raw` (from offset 0 with a fresh dict, as `object_read`
invokes it) runs out of every fuel bound: the Python original never
returns and never raises. -/
def kvlmParseDiverges (raw : Bytes) : Prop :=
  ∀ dct fuel, kvlm_parse raw 0 dct fuel = .outOfFuel

/-- The tree sort key as the specification words it (§3/§4.3): a trailing
separator is appended exactly for entries whose mode begins with the
tree-type prefix (`04`, or `4` for an un-normalized 5-digit mode). Stated
only to compare with the source's `tree_leaf_sort_key`. -/
def specTreeSortKey (leaf : GitTreeLeaf) : Bytes :=
  if leaf.mode.take 2 = [48, 52] ∨ (leaf.mode.length = 5 ∧ leaf.mode.take 1 = [52])
  then leaf.path ++ [47] else leaf.path
section BfindLemmas

theorem bidx_append_of_not_mem {A : Bytes} {c : Nat} (h : c ∉ A) (B : Bytes) :
    bidx (A ++ B) c = (bidx B c).map (A.length + ·) := by
  induction A with
  | nil => rw [List.nil_append]; cases h' : bidx B c <;> simp [h']
  | cons a A ih =>
    simp only [List.mem_cons, not_or] at h
    rw [List.cons_append, bidx, if_neg (Ne.symm h.1 : ¬a = c), ih h.2]
    cases bidx B c with
    | none => rfl
    | some i => simp [Nat.add_comm, Nat.add_assoc, Nat.add_left_comm]

theorem bidx_cons_self (c : Nat) (R : Bytes) : bidx (c :: R) c = some 0 := by
  simp [bidx]

/-- First-occurrence characterisation: if `c` does not occur in `A` and
`B` starts with `c`, the index is `A.length`. -/
theorem bidx_first {A : Bytes} {c : Nat} (h : c ∉ A) (B : Bytes) :
    bidx (A ++ c :: B) c = some A.length := by
  rw [bidx_append_of_not_mem h, bidx_cons_self]; simp [Option.map]

theorem bidx_eq_none_of_not_mem {A : Bytes} {c : Nat} (h : c ∉ A) :
    bidx A c = none := by
  induction A with
  | nil => rfl
  | cons a A ih =>
    simp only [List.mem_cons, not_or] at h
    simp [bidx, Ne.symm h.1, ih h.2]

theorem bidx_mem {A : Bytes} {c i : Nat} (h : bidx A c = some i) :
    i < A.length ∧ A.drop i = c :: A.drop (i + 1) := by
  induction A generalizing i with
  | nil => simp [bidx] at h
  | cons a A ih =>
    by_cases hac : a = c
    · subst hac
      simp [bidx] at h
      subst h
      simp
    · simp [bidx, hac] at h
      obtain ⟨j, hj, rfl⟩ := h
      obtain ⟨h1, h2⟩ := ih hj
      constructor
      · simpa using h1
      · simpa using h2

end BfindLemmas

/-! ## Basic facts about the Python primitives -/

theorem pyBound_coe (len m : Nat) : pyBound len (m : Int) = m := by
  simp [pyBound]

theorem pySlice_nat (raw : Bytes) (a b : Nat) :
    pySlice raw (a : Int) (b : Int) = (raw.take b).drop a := by
  simp [pySlice, pyBound_coe]

theorem pySlice_to_end (raw : Bytes) (m : Nat) :
    pySlice raw (m : Int) (raw.length : Int) = raw.drop m := by
  rw [pySlice_nat, List.take_length]

theorem pySlice_seg (raw : Bytes) (o m : Nat) :
    pySlice raw (o : Int) ((o : Int) + (m : Int)) = (raw.drop o).take m := by
  have h : (o : Int) + (m : Int) = ((o + m : Nat) : Int) := by push_cast; ring
  rw [h, pySlice_nat, List.drop_take]
  congr 1
  omega

theorem bfind_coe (raw : Bytes) (c o : Nat) :
    bfind raw c (o : Int) =
      match bidx (raw.drop o) c with
      | some i => ((o + i : Nat) : Int)
      | none => -1 := by
  simp only [bfind, pyBound_coe]

theorem bfind_first {raw : Bytes} {c : Nat} {o : Nat} {A B : Bytes}
    (hdrop : raw.drop o = A ++ c :: B) (hA : c ∉ A) :
    bfind raw c (o : Int) = ((o + A.length : Nat) : Int) := by
  rw [bfind_coe, hdrop, bidx_first hA]

theorem bfind_neg {raw : Bytes} {c : Nat} {o : Nat} (h : c ∉ raw.drop o) :
    bfind raw c (o : Int) = -1 := by
  rw [bfind_coe, bidx_eq_none_of_not_mem h]

theorem bidx_isSome_of_mem {A : Bytes} {c : Nat} (h : c ∈ A) :
    ∃ i, bidx A c = some i := by
  induction A with
  | nil => cases h
  | cons a A ih =>
    by_cases hac : a = c
    · exact ⟨0, by simp [bidx, hac]⟩
    · rcases List.mem_cons.mp h with h2 | h2
      · exact absurd h2.symm hac
      · obtain ⟨i, hi⟩ := ih h2
        exact ⟨i + 1, by simp [bidx, hac, hi]⟩

theorem bidx_ge_of_not_mem_take {A : Bytes} {c i m : Nat}
    (h : bidx A c = some i) (hm : c ∉ A.take m) : m ≤ i := by
  induction A generalizing i m with
  | nil => simp [bidx] at h
  | cons a A ih =>
    cases m with
    | zero => omega
    | succ m =>
      rw [List.take_succ_cons] at hm
      simp only [List.mem_cons, not_or] at hm
      by_cases hac : a = c
      · exact absurd hac.symm hm.1
      · simp only [bidx, if_neg hac, Option.map_eq_some'] at h
        obtain ⟨j, hj, rfl⟩ := h
        have := ih hj hm.2
        omega

theorem get_drop_eq {raw : Bytes} {m : Nat} {L : Bytes} (hd : raw.drop m = L)
    {j : Nat} (hj : j < L.length) (h : m + j < raw.length) :
    raw.get ⟨m + j, h⟩ = L.get ⟨j, hj⟩ := by
  subst hd
  simp only [List.get_eq_getElem, List.getElem_drop]

theorem length_of_drop_eq {raw L : Bytes} {m : Nat} (hd : raw.drop m = L)
    (hL : L ≠ []) : m + L.length = raw.length := by
  have h1 : raw.length - m = L.length := by
    simpa using congrArg List.length hd
  have h2 : 0 < L.length := List.length_pos.mpr hL
  omega

/-! ## Continuation expansion and folding -/

theorem expandNl_cons_ne {b : Nat} (hb : b ≠ 10) (r : Bytes) :
    expandNl (b :: r) = b :: expandNl r := by
  simp [expandNl, hb]

theorem foldNl_expandNl (v : Bytes) : foldNl (expandNl v) = v := by
  induction v with
  | nil => rfl
  | cons b r ih =>
    by_cases hb : b = 10
    · subst hb
      show foldNl (10 :: 32 :: expandNl r) = 10 :: r
      simp [foldNl, ih]
    · rw [expandNl_cons_ne hb]
      cases he : expandNl r with
      | nil =>
        have hr : r = [] := by
          cases r with
          | nil => rfl
          | cons c s =>
            by_cases hc : c = 10
            · subst hc; simp [expandNl] at he
            · rw [expandNl_cons_ne hc] at he; cases he
        subst hr
        rfl
      | cons c s =>
        have h3 : foldNl (b :: c :: s) = b :: foldNl (c :: s) := by
          simp only [foldNl, if_neg (fun h => hb h.1 : ¬(b = 10 ∧ c = 32))]
        rw [h3, ← he, ih]

theorem contOk_cons_ne {b : Nat} (hb : b ≠ 10) (r : Bytes) :
    contOk (b :: r) = contOk r := by
  cases r with
  | nil => simp [contOk, hb]
  | cons c s => simp [contOk, hb]

theorem contOk_cons_true {b : Nat} {r : Bytes} (h : contOk (b :: r) = true) :
    contOk r = true := by
  cases r with
  | nil => rfl
  | cons c s =>
    by_cases hb : b = 10
    · subst hb
      simp [contOk] at h
      rcases h with ⟨h1, h2⟩
      exact h2
    · rwa [contOk_cons_ne hb] at h

theorem contOk_expandNl (v : Bytes) : contOk (expandNl v) = true := by
  induction v with
  | nil => rfl
  | cons b r ih =>
    by_cases hb : b = 10
    · subst hb
      show contOk (10 :: 32 :: expandNl r) = true
      simp [contOk]
      rw [contOk_cons_ne (by omega : (32 : Nat) ≠ 10)]
      exact ih
    · rw [expandNl_cons_ne hb, contOk_cons_ne hb]
      exact ih

theorem contOk_append_first_ten {A B : Bytes} (h : contOk (A ++ 10 :: B) = true) :
    (∃ B2, B = 32 :: B2) ∧ contOk B = true := by
  induction A with
  | nil =>
    cases B with
    | nil => simp [contOk] at h
    | cons c s =>
      rw [List.nil_append] at h
      simp [contOk] at h
      rcases h with ⟨h1, h2⟩
      subst h1
      exact ⟨⟨s, rfl⟩, h2⟩
  | cons a A ih =>
    exact ih (contOk_cons_true (by simpa using h))

/-! ## Ordered-dictionary lemmas -/

theorem dctLookup_append_right {d1 : Kvlm} {k : Option Bytes}
    (h : dctLookup d1 k = none) (d2 : Kvlm) :
    dctLookup (d1 ++ d2) k = dctLookup d2 k := by
  induction d1 with
  | nil => rfl
  | cons p rest ih =>
    obtain ⟨k2, v⟩ := p
    by_cases hk : k2 = k
    · simp [dctLookup, hk] at h
    · simp only [dctLookup, if_neg hk] at h
      simpa [dctLookup, hk] using ih h

theorem dctLookup_none_of_keys {d : Kvlm} {k : Option Bytes}
    (h : ∀ p ∈ d, p.1 ≠ k) : dctLookup d k = none := by
  induction d with
  | nil => rfl
  | cons p rest ih =>
    obtain ⟨k2, v⟩ := p
    have hk : k2 ≠ k := h (k2, v) (by simp)
    simp only [dctLookup, if_neg hk]
    exact ih (fun q hq => h q (by simp [hq]))

theorem dctSet_append_of_lookup_none {d : Kvlm} {k : Option Bytes}
    (h : dctLookup d k = none) (v : KvVal) :
    dctSet d k v = d ++ [(k, v)] := by
  induction d with
  | nil => rfl
  | cons p rest ih =>
    obtain ⟨k2, w⟩ := p
    by_cases hk : k2 = k
    · simp [dctLookup, hk] at h
    · simp only [dctLookup, if_neg hk] at h
      simp [dctSet, hk, ih h]

theorem dctSet_mid {d1 : Kvlm} {k : Option Bytes}
    (h : dctLookup d1 k = none) (w w2 : KvVal) (d2 : Kvlm) :
    dctSet (d1 ++ (k, w) :: d2) k w2 = d1 ++ (k, w2) :: d2 := by
  induction d1 with
  | nil => simp [dctSet]
  | cons p rest ih =>
    obtain ⟨k2, v⟩ := p
    by_cases hk : k2 = k
    · simp [dctLookup, hk] at h
    · simp only [dctLookup, if_neg hk] at h
      simp [dctSet, hk, ih h]

theorem kvlmStore_new {dct : Kvlm} {k : Bytes}
    (h : dctLookup dct (some k) = none) (v : Bytes) :
    kvlmStore dct k v = dct ++ [(some k, .one v)] := by
  rw [kvlmStore, h, dctSet_append_of_lookup_none h]

theorem kvlmStore_snd {d1 : Kvlm} {k : Bytes}
    (h : dctLookup d1 (some k) = none) (v1 v2 : Bytes) (d2 : Kvlm) :
    kvlmStore (d1 ++ (some k, .one v1) :: d2) k v2 =
      d1 ++ (some k, .many [v1, v2]) :: d2 := by
  have hl : dctLookup (d1 ++ (some k, .one v1) :: d2) (some k) = some (.one v1) := by
    rw [dctLookup_append_right h]
    simp [dctLookup]
  rw [kvlmStore, hl]
  exact dctSet_mid h _ _ _

theorem kvlmStore_more {d1 : Kvlm} {k : Bytes}
    (h : dctLookup d1 (some k) = none) (vs : List Bytes) (v : Bytes) (d2 : Kvlm) :
    kvlmStore (d1 ++ (some k, .many vs) :: d2) k v =
      d1 ++ (some k, .many (vs ++ [v])) :: d2 := by
  have hl : dctLookup (d1 ++ (some k, .many vs) :: d2) (some k) = some (.many vs) := by
    rw [dctLookup_append_right h]
    simp [dctLookup]
  rw [kvlmStore, hl]
  exact dctSet_mid h _ _ _

theorem foldl_store_many {k : Bytes} (vs : List Bytes) {d1 : Kvlm}
    (h : dctLookup d1 (some k) = none) (ws : List Bytes) :
    (vs.map (fun v => (k, v))).foldl (fun d p => kvlmStore d p.1 p.2)
        (d1 ++ [(some k, .many ws)]) =
      d1 ++ [(some k, .many (ws ++ vs))] := by
  induction vs generalizing ws with
  | nil => simp
  | cons v vs ih =>
    simp only [List.map_cons, List.foldl_cons]
    rw [kvlmStore_more h ws v []]
    rw [ih (ws ++ [v])]
    simp

theorem foldl_store_vals {k : Bytes} {d1 : Kvlm}
    (h : dctLookup d1 (some k) = none) (vs : List Bytes) (hvs : vs ≠ []) :
    (vs.map (fun v => (k, v))).foldl (fun d p => kvlmStore d p.1 p.2) d1 =
      d1 ++ [(some k, mkVal vs)] := by
  cases vs with
  | nil => cases hvs rfl
  | cons v1 vs2 =>
    simp only [List.map_cons, List.foldl_cons]
    rw [kvlmStore_new h v1]
    cases vs2 with
    | nil => simp [mkVal]
    | cons v2 vs3 =>
      simp only [List.map_cons, List.foldl_cons]
      rw [kvlmStore_snd h v1 v2 []]
      rw [foldl_store_many vs3 h [v1, v2]]
      simp [mkVal]

theorem mkVal_valList {val : KvVal} (h : wfVal val) : mkVal (valList val) = val := by
  cases val with
  | one v => rfl
  | many vs =>
    match vs with
    | [] => simp [wfVal] at h
    | [v] => simp [wfVal] at h
    | v1 :: v2 :: vs3 => rfl

theorem valList_ne_nil {val : KvVal} (h : wfVal val) : valList val ≠ [] := by
  cases val with
  | one v => simp [valList]
  | many vs =>
    match vs with
    | [] => simp [wfVal] at h
    | v :: vs2 => simp [valList]

theorem foldl_store_linesOf : ∀ (hdr dct : Kvlm),
    (∀ p ∈ hdr, ∃ k, p.1 = some k ∧ wfVal p.2 ∧ dctLookup dct (some k) = none) →
    (hdr.map Prod.fst).Nodup →
    (linesOf hdr).foldl (fun d p => kvlmStore d p.1 p.2) dct = dct ++ hdr := by
  intro hdr
  induction hdr with
  | nil => intro dct _ _; simp [linesOf]
  | cons p hdr2 ih =>
    intro dct hp hnd
    obtain ⟨k, hk, hwf, hlk⟩ := hp p (by simp)
    obtain ⟨k0, val⟩ := p
    change k0 = some k at hk
    change wfVal val at hwf
    subst hk
    rw [linesOf, List.foldl_append]
    rw [foldl_store_vals hlk (valList val) (valList_ne_nil hwf), mkVal_valList hwf]
    rw [ih (dct ++ [(some k, val)])]
    · simp
    · intro q hq
      obtain ⟨k2, hk2, hwf2, hlk2⟩ := hp q (by simp [hq])
      refine ⟨k2, hk2, hwf2, ?_⟩
      rw [dctLookup_append_right hlk2]
      have hne : ¬(some k = some k2) := by
        simp only [List.map_cons, List.nodup_cons] at hnd
        intro hEq
        apply hnd.1
        rw [hEq]
        exact List.mem_map.mpr ⟨q, hq, hk2⟩
      simp [dctLookup, hne]
    · simp only [List.map_cons, List.nodup_cons] at hnd
      exact hnd.2

/-! ## The continuation scan -/

theorem bidx_not_mem_take {A : Bytes} {c i : Nat} (h : bidx A c = some i) :
    c ∉ A.take i := by
  induction A generalizing i with
  | nil => simp
  | cons a A ih =>
    by_cases hac : a = c
    · subst hac
      simp [bidx] at h
      subst h
      simp
    · simp only [bidx, if_neg hac, Option.map_eq_some'] at h
      obtain ⟨j, hj, rfl⟩ := h
      rw [List.take_succ_cons]
      simp only [List.mem_cons, not_or]
      exact ⟨fun hc => hac hc.symm, ih hj⟩

theorem scanEnd_step_found {raw : Bytes} {e : Nat} {A B : Bytes} (fuel : Nat)
    (hdrop : raw.drop (e + 1) = A ++ 10 :: B) (hA : 10 ∉ A) (hB : B ≠ []) :
    scanEnd raw (fuel + 1) (e : Int) =
      if B.head? = some 32 then scanEnd raw fuel ((e + 1 + A.length : Nat) : Int)
      else .ok ((e + 1 + A.length : Nat) : Int) := by
  obtain ⟨b, B2, rfl⟩ : ∃ b B2, B = b :: B2 := by
    cases B with
    | nil => cases hB rfl
    | cons b B2 => exact ⟨b, B2, rfl⟩
  have hlen : e + 1 + A.length + 1 + (b :: B2).length = raw.length := by
    have h1 := length_of_drop_eq hdrop (by simp)
    simp only [List.length_append, List.length_cons] at h1 ⊢
    omega
  have hcast : (e : Int) + 1 = ((e + 1 : Nat) : Int) := by push_cast; ring
  have hbf : bfind raw 10 ((e : Int) + 1) = ((e + 1 + A.length : Nat) : Int) := by
    rw [hcast]
    exact bfind_first hdrop hA
  have hidxval : ((((e + 1 + A.length : Nat) : Int)) + 1).toNat = e + 1 + A.length + 1 := by
    omega
  have hlt : e + 1 + A.length + 1 < raw.length := by
    simp only [List.length_cons] at hlen
    omega
  have hpf : A.length + 1 < (raw.drop (e + 1)).length := by
    rw [hdrop]
    simp
  have h4 : (raw.drop (e + 1)).get ⟨A.length + 1, hpf⟩ = b := by
    rw [List.get_eq_getElem]
    simp only [hdrop]
    rw [List.getElem_append_right (by omega)]
    simp
  have hget : raw.get ⟨e + 1 + A.length + 1, hlt⟩ = b := by
    have h5 : (raw.drop (e + 1)).get ⟨A.length + 1, hpf⟩ =
        raw.get ⟨e + 1 + A.length + 1, hlt⟩ := by
      simp only [List.get_eq_getElem]
      exact List.getElem_drop raw
    rw [← h5, h4]
  simp only [scanEnd, hbf, hidxval]
  rw [dif_pos hlt, hget]
  by_cases hb : b = 32
  · subst hb
    simp
  · simp [hb]

theorem scanEnd_step_none {r0 : Nat} {raw raw2 : Bytes} {e : Nat} (fuel : Nat)
    (hraw : raw = r0 :: raw2)
    (hnone : 10 ∉ raw.drop (e + 1)) :
    scanEnd raw (fuel + 1) (e : Int) =
      if r0 = 32 then scanEnd raw fuel (-1) else .ok (-1) := by
  have hcast : (e : Int) + 1 = ((e + 1 : Nat) : Int) := by push_cast; ring
  have hbf : bfind raw 10 ((e : Int) + 1) = -1 := by
    rw [hcast]
    exact bfind_neg hnone
  have hidx : ((-1 : Int) + 1).toNat = 0 := rfl
  have hlt : 0 < raw.length := by subst hraw; simp
  have hget : raw.get ⟨0, hlt⟩ = r0 := by subst hraw; rfl
  simp only [scanEnd, hbf, hidx]
  rw [dif_pos hlt, hget]

theorem scanEnd_step_last {raw : Bytes} {e : Nat} {A : Bytes} (fuel : Nat)
    (hdrop : raw.drop (e + 1) = A ++ [10]) (hA : 10 ∉ A) :
    scanEnd raw (fuel + 1) (e : Int) = .indexError := by
  have hlen : e + 1 + A.length + 1 = raw.length := by
    have h1 := length_of_drop_eq hdrop (by simp)
    simp only [List.length_append, List.length_cons, List.length_nil] at h1
    omega
  have hcast : (e : Int) + 1 = ((e + 1 : Nat) : Int) := by push_cast; ring
  have hbf : bfind raw 10 ((e : Int) + 1) = ((e + 1 + A.length : Nat) : Int) := by
    rw [hcast]
    exact bfind_first hdrop hA
  have hidxval : ((((e + 1 + A.length : Nat) : Int)) + 1).toNat = e + 1 + A.length + 1 := by
    omega
  have hge : ¬(e + 1 + A.length + 1 < raw.length) := by omega
  simp only [scanEnd, hbf, hidxval]
  rw [dif_neg hge]

theorem scanEnd_ok :
    ∀ (fuel : Nat) {raw : Bytes} (C : Bytes) (e : Nat) (rest : Bytes),
      raw.drop (e + 1) = C ++ 10 :: rest →
      contOk C = true →
      rest.head? ≠ some 32 →
      rest ≠ [] →
      C.count 10 + 1 ≤ fuel →
      scanEnd raw fuel (e : Int) = .ok ((e : Int) + 1 + C.length) := by
  intro fuel
  induction fuel with
  | zero =>
    intro raw C e rest _ _ _ _ h5
    omega
  | succ fuel ih =>
    intro raw C e rest hdrop hcont hhead hne hfuel
    by_cases hmem : 10 ∈ C
    · obtain ⟨i, hi⟩ := bidx_isSome_of_mem hmem
      obtain ⟨hilt, hdropC⟩ := bidx_mem hi
      have hC : C = C.take i ++ 10 :: C.drop (i + 1) := by
        conv_lhs => rw [← List.take_append_drop i C]
        rw [hdropC]
      have hnotmem : 10 ∉ C.take i := bidx_not_mem_take hi
      set C1 := C.take i with hC1
      set C2 := C.drop (i + 1) with hC2
      have hcd : (∃ B2, C2 = 32 :: B2) ∧ contOk C2 = true :=
        contOk_append_first_ten (B := C2) (by rw [← hC]; exact hcont)
      obtain ⟨⟨B2, hB2⟩, hcont2⟩ := hcd
      have hdrop2 : raw.drop (e + 1) = C1 ++ 10 :: (C2 ++ 10 :: rest) := by
        rw [hdrop]
        conv_lhs => rw [hC]
        simp
      rw [scanEnd_step_found fuel hdrop2 hnotmem (by simp)]
      rw [if_pos (by rw [hB2]; rfl)]
      have hdrop3 : raw.drop (e + 1 + C1.length + 1) = C2 ++ 10 :: rest := by
        rw [show e + 1 + C1.length + 1 = (e + 1) + (C1.length + 1) by omega,
          ← List.drop_drop, hdrop2]
        rw [show C1 ++ 10 :: (C2 ++ 10 :: rest) = (C1 ++ [10]) ++ (C2 ++ 10 :: rest) by simp]
        rw [show C1.length + 1 = (C1 ++ [10]).length by simp]
        exact List.drop_left _ _
      have hcnt : C.count 10 = C1.count 10 + 1 + C2.count 10 := by
        conv_lhs => rw [hC]
        simp [List.count_append]
        omega
      have hfuel2 : C2.count 10 + 1 ≤ fuel := by omega
      rw [ih C2 (e + 1 + C1.length) rest hdrop3 hcont2 hhead hne hfuel2]
      have hClen : C.length = C1.length + 1 + C2.length := by
        conv_lhs => rw [hC]
        simp
        omega
      congr 1
      push_cast
      omega
    · rw [scanEnd_step_found fuel hdrop hmem hne, if_neg hhead]
      have hcc : ((e + 1 + C.length : Nat) : Int) = (e : Int) + 1 + (C.length : Int) := by
        push_cast
        ring
      rw [hcc]

/-! ## One line of kvlm parsing -/

theorem contOk_append_no_ten {A X : Bytes} (hA : 10 ∉ A) :
    contOk (A ++ X) = contOk X := by
  induction A with
  | nil => rfl
  | cons a A ih =>
    simp only [List.mem_cons, not_or] at hA
    rw [List.cons_append, contOk_cons_ne (fun h => hA.1 h.symm), ih hA.2]

theorem kvlm_parse_base {raw : Bytes} {o : Nat} {M : Bytes} (dct : Kvlm) (fuel : Nat)
    (hdrop : raw.drop o = 10 :: M) :
    kvlm_parse raw o dct (fuel + 1) = .ok (dctSet dct none (.one M)) := by
  have hnl : bfind raw 10 (o : Int) = (o : Int) := by
    have h := bfind_first (A := []) (B := M) (by simpa using hdrop) (by simp)
    simpa using h
  have hbase : bfind raw 32 (o : Int) < 0 ∨
      bfind raw 10 (o : Int) < bfind raw 32 (o : Int) := by
    rcases h32 : bidx (raw.drop o) 32 with _ | j
    · left
      have h2 : bfind raw 32 (o : Int) = -1 := by rw [bfind_coe, h32]
      rw [h2]
      decide
    · right
      have h2 : bfind raw 32 (o : Int) = ((o + j : Nat) : Int) := by
        rw [bfind_coe, h32]
      rw [hnl, h2]
      have hj : 1 ≤ j := by
        apply bidx_ge_of_not_mem_take h32
        rw [hdrop]
        simp
      push_cast
      omega
  have hslice : pySlice raw ((o : Int) + 1) (raw.length : Int) = M := by
    have hcast : (o : Int) + 1 = ((o + 1 : Nat) : Int) := by push_cast; ring
    rw [hcast, pySlice_to_end]
    rw [show o + 1 = o + 1 from rfl, ← List.drop_drop, hdrop]
    rfl
  simp only [kvlm_parse]
  rw [if_pos hbase, if_pos hnl, hslice]

theorem kvlm_parse_step {raw : Bytes} {o : Nat} {k v : Bytes} {rest : Bytes}
    (dct : Kvlm) (fuel : Nat)
    (hdrop : raw.drop o = k ++ 32 :: (expandNl v ++ 10 :: rest))
    (hk : k ≠ []) (hk32 : 32 ∉ k) (hk10 : 10 ∉ k)
    (hrest : rest ≠ []) (hresthead : rest.head? ≠ some 32)
    (hfuel : (expandNl v).count 10 + 1 ≤ fuel) :
    kvlm_parse raw o dct (fuel + 1) =
      kvlm_parse raw (o + k.length + 1 + (expandNl v).length + 1)
        (kvlmStore dct k v) fuel := by
  set ev := expandNl v with hev
  obtain ⟨k0, k2, hkc⟩ : ∃ k0 k2, k = k0 :: k2 := by
    cases k with
    | nil => cases hk rfl
    | cons k0 k2 => exact ⟨k0, k2, rfl⟩
  have hk0 : k0 ≠ 10 := by
    intro h
    exact hk10 (by rw [hkc, h]; simp)
  have htail10 : 10 ∉ k.tail := by
    intro h
    exact hk10 (List.mem_of_mem_tail h)
  have hClen : (k.tail ++ 32 :: ev).length = k.length + ev.length := by
    rw [hkc]
    simp
    omega
  have hspc : bfind raw 32 (o : Int) = ((o + k.length : Nat) : Int) :=
    bfind_first hdrop hk32
  have hnlfound : ∃ j, bidx (raw.drop o) 10 = some j ∧ k.length + 1 ≤ j := by
    have hmem : 10 ∈ raw.drop o := by rw [hdrop]; simp
    obtain ⟨j, hj⟩ := bidx_isSome_of_mem hmem
    refine ⟨j, hj, ?_⟩
    apply bidx_ge_of_not_mem_take hj
    rw [hdrop]
    have ht : (k ++ 32 :: (ev ++ 10 :: rest)).take (k.length + 1) = k ++ [32] := by
      rw [List.take_append_eq_append_take]
      congr 1
      · exact List.take_of_length_le (by omega)
      · simp
    rw [ht]
    simp only [List.mem_append, List.mem_singleton, not_or]
    exact ⟨hk10, by omega⟩
  have hnocond : ¬(bfind raw 32 (o : Int) < 0 ∨
      bfind raw 10 (o : Int) < bfind raw 32 (o : Int)) := by
    obtain ⟨j, hj, hjge⟩ := hnlfound
    have hnl2 : bfind raw 10 (o : Int) = ((o + j : Nat) : Int) := by
      rw [bfind_coe, hj]
    rw [hspc, hnl2]
    push_neg
    constructor
    · push_cast; omega
    · push_cast; omega
  have hkey : pySlice raw (o : Int) ((o + k.length : Nat) : Int) = k := by
    have h1 : ((o + k.length : Nat) : Int) = (o : Int) + (k.length : Int) := by
      push_cast; ring
    rw [h1, pySlice_seg, hdrop]
    exact List.take_left k _
  have hdropo1 : raw.drop (o + 1) = (k.tail ++ 32 :: ev) ++ 10 :: rest := by
    rw [show o + 1 = o + 1 from rfl, ← List.drop_drop, hdrop, hkc]
    simp
  have hscan : scanEnd raw fuel (o : Int) =
      .ok ((o : Int) + 1 + ((k.tail ++ 32 :: ev).length : Int)) := by
    apply scanEnd_ok fuel (k.tail ++ 32 :: ev) o rest hdropo1 _ hresthead hrest _
    · rw [contOk_append_no_ten htail10, contOk_cons_ne (by omega : (32 : Nat) ≠ 10)]
      exact contOk_expandNl v
    · have hcnt : (k.tail ++ 32 :: ev).count 10 = ev.count 10 := by
        rw [List.count_append, List.count_eq_zero.mpr htail10, List.count_cons]
        simp
      omega
  have hdrop4 : raw.drop (o + k.length + 1) = ev ++ 10 :: rest := by
    rw [show o + k.length + 1 = o + (k.length + 1) by omega, ← List.drop_drop, hdrop]
    rw [show k ++ 32 :: (ev ++ 10 :: rest) = (k ++ [32]) ++ (ev ++ 10 :: rest) by simp]
    rw [show k.length + 1 = (k ++ [32]).length by simp]
    exact List.drop_left _ _
  have hvalue : pySlice raw (((o + k.length : Nat) : Int) + 1)
      ((o : Int) + 1 + ((k.tail ++ 32 :: ev).length : Int)) = ev := by
    have h1 : ((o + k.length : Nat) : Int) + 1 = ((o + k.length + 1 : Nat) : Int) := by
      push_cast; ring
    have h2 : (o : Int) + 1 + ((k.tail ++ 32 :: ev).length : Int) =
        ((o + k.length + 1 : Nat) : Int) + ((ev.length : Nat) : Int) := by
      rw [hClen]
      push_cast
      ring
    rw [h1, h2, pySlice_seg, hdrop4]
    exact List.take_left ev _
  simp only [kvlm_parse]
  rw [if_neg hnocond, hspc, hscan]
  simp only []
  rw [hkey, hvalue, hev, foldNl_expandNl]
  have hidx : (((o : Int) + 1 + ((k.tail ++ 32 :: ev).length : Int)) + 1).toNat =
      o + k.length + 1 + ev.length + 1 := by
    rw [hClen]
    omega
  rw [hidx]

/-! ## Parsing a whole serialized header block -/

theorem serPhys_head {L : List (Bytes × Bytes)} (hkeys : ∀ p ∈ L, goodKey p.1)
    (M : Bytes) :
    (serPhys L ++ 10 :: M).head? ≠ some 32 ∧ serPhys L ++ 10 :: M ≠ [] := by
  cases L with
  | nil =>
    constructor
    · simp [serPhys]
    · simp [serPhys]
  | cons p rest =>
    obtain ⟨k, v⟩ := p
    obtain ⟨hk, hk32, hk10⟩ := hkeys (k, v) (by simp)
    obtain ⟨k0, k2, rfl⟩ : ∃ k0 k2, k = k0 :: k2 := by
      cases k with
      | nil => cases hk rfl
      | cons k0 k2 => exact ⟨k0, k2, rfl⟩
    have hk0 : k0 ≠ 32 := fun h => hk32 (by rw [h]; simp)
    constructor
    · simp [serPhys, serLine, hk0]
    · simp [serPhys, serLine]

theorem kvlm_parse_phys :
    ∀ (L : List (Bytes × Bytes)) {raw : Bytes} (o : Nat) (M : Bytes)
      (dct : Kvlm) (fuel : Nat),
      raw.drop o = serPhys L ++ 10 :: M →
      (∀ p ∈ L, goodKey p.1) →
      (serPhys L).length + 2 ≤ fuel →
      kvlm_parse raw o dct fuel =
        .ok (dctSet (L.foldl (fun d p => kvlmStore d p.1 p.2) dct) none (.one M)) := by
  intro L
  induction L with
  | nil =>
    intro raw o M dct fuel hdrop _ hfuel
    obtain ⟨f2, rfl⟩ : ∃ f2, fuel = f2 + 1 := by
      cases fuel with
      | zero => omega
      | succ f2 => exact ⟨f2, rfl⟩
    simpa using kvlm_parse_base dct f2 (by simpa [serPhys] using hdrop)
  | cons p L ih =>
    intro raw o M dct fuel hdrop hkeys hfuel
    obtain ⟨k, v⟩ := p
    obtain ⟨hk, hk32, hk10⟩ := hkeys (k, v) (by simp)
    obtain ⟨f2, rfl⟩ : ∃ f2, fuel = f2 + 1 := by
      cases fuel with
      | zero => simp [serPhys, serLine] at hfuel
      | succ f2 => exact ⟨f2, rfl⟩
    have hdrop2 : raw.drop o =
        k ++ 32 :: (expandNl v ++ 10 :: (serPhys L ++ 10 :: M)) := by
      rw [hdrop]
      simp [serPhys, serLine]
    have hhead := serPhys_head (L := L) (fun q hq => hkeys q (by simp [hq])) M
    have hlenline : (serPhys ((k, v) :: L)).length =
        k.length + 1 + (expandNl v).length + 1 + (serPhys L).length := by
      simp [serPhys, serLine]
      omega
    have hscanfuel : (expandNl v).count 10 + 1 ≤ f2 := by
      have hcl := List.count_le_length 10 (expandNl v)
      rw [hlenline] at hfuel
      omega
    rw [kvlm_parse_step dct f2 hdrop2 hk hk32 hk10 hhead.2 hhead.1 hscanfuel]
    have hdrop3 : raw.drop (o + k.length + 1 + (expandNl v).length + 1) =
        serPhys L ++ 10 :: M := by
      rw [show o + k.length + 1 + (expandNl v).length + 1 =
        o + (serLine k v).length by simp [serLine]; omega]
      rw [← List.drop_drop, hdrop]
      rw [show serPhys ((k, v) :: L) ++ 10 :: M =
        serLine k v ++ (serPhys L ++ 10 :: M) by simp [serPhys]]
      exact List.drop_left _ _
    rw [ih (o + k.length + 1 + (expandNl v).length + 1) M (kvlmStore dct k v) f2
      hdrop3 (fun q hq => hkeys q (by simp [hq])) (by rw [hlenline] at hfuel; omega)]
    rfl

/-! ## Serializer structure lemmas -/

theorem serPhys_append (A B : List (Bytes × Bytes)) :
    serPhys (A ++ B) = serPhys A ++ serPhys B := by
  induction A with
  | nil => rfl
  | cons p A ih =>
    obtain ⟨k, v⟩ := p
    simp [serPhys, ih]

theorem serLines_eq_serPhys (k : Bytes) (vs : List Bytes) :
    serLines k vs = serPhys (vs.map (fun v => (k, v))) := by
  induction vs with
  | nil => rfl
  | cons v vs ih => simp [serLines, serPhys, ih]

theorem serHeaders_eq_serPhys (d : Kvlm) : serHeaders d = serPhys (linesOf d) := by
  induction d with
  | nil => rfl
  | cons p rest ih =>
    obtain ⟨ko, val⟩ := p
    cases ko with
    | none => simpa [serHeaders, linesOf] using ih
    | some k => rw [serHeaders, linesOf, serPhys_append, serLines_eq_serPhys, ih]

theorem serHeaders_append (A B : Kvlm) :
    serHeaders (A ++ B) = serHeaders A ++ serHeaders B := by
  induction A with
  | nil => rfl
  | cons p A ih =>
    obtain ⟨ko, val⟩ := p
    cases ko with
    | none => simpa [serHeaders] using ih
    | some k => rw [List.cons_append, serHeaders, serHeaders, ih, List.append_assoc]

theorem linesOf_keys_good {hdr : Kvlm}
    (h : ∀ p ∈ hdr, ∃ k, p.1 = some k ∧ goodKey k) :
    ∀ q ∈ linesOf hdr, goodKey q.1 := by
  induction hdr with
  | nil => simp [linesOf]
  | cons p rest ih =>
    obtain ⟨ko, val⟩ := p
    cases ko with
    | none =>
      rw [linesOf]
      exact ih (fun q hq => h q (by simp [hq]))
    | some k =>
      intro q hq
      rw [linesOf] at hq
      rcases List.mem_append.mp hq with hq2 | hq2
      · obtain ⟨v, _, rfl⟩ := List.mem_map.mp hq2
        obtain ⟨k2, hk2, hg⟩ := h (some k, val) (by simp)
        have : k = k2 := by
          simpa using hk2
        subst this
        exact hg
      · exact ih (fun q2 hq3 => h q2 (by simp [hq3])) q hq2

/-- The shared round-trip engine: a wellformed header block followed by the
message slot serializes to the expected bytes, and parsing those bytes
back yields the same mapping with one newline appended to the message. -/
theorem kvlm_roundtrip_aux (hdr : Kvlm) (m : Bytes) (fuel : Nat)
    (hkeys : ∀ p ∈ hdr, ∃ k, p.1 = some k ∧ goodKey k)
    (hvals : ∀ p ∈ hdr, wfVal p.2)
    (hnodup : (hdr.map Prod.fst).Nodup)
    (hfuel : (serHeaders hdr).length + 2 ≤ fuel) :
    kvlm_serialize (hdr ++ [(none, .one m)]) =
      .ok (serHeaders hdr ++ 10 :: (m ++ [10])) ∧
    kvlm_parse (serHeaders hdr ++ 10 :: (m ++ [10])) 0 [] fuel =
      .ok (hdr ++ [(none, .one (m ++ [10]))]) := by
  have hnone : dctLookup hdr none = none := by
    apply dctLookup_none_of_keys
    intro p hp
    obtain ⟨k, hk, _⟩ := hkeys p hp
    rw [hk]
    simp
  constructor
  · have hl : dctLookup (hdr ++ [(none, .one m)]) none = some (.one m) := by
      rw [dctLookup_append_right hnone]
      simp [dctLookup]
    simp only [kvlm_serialize, hl]
    rw [serHeaders_append]
    simp [serHeaders]
  · have hdrop : (serHeaders hdr ++ 10 :: (m ++ [10])).drop 0 =
        serPhys (linesOf hdr) ++ 10 :: (m ++ [10]) := by
      rw [List.drop_zero, serHeaders_eq_serPhys]
    rw [kvlm_parse_phys (linesOf hdr) 0 (m ++ [10]) [] fuel hdrop
      (linesOf_keys_good hkeys)
      (by rw [← serHeaders_eq_serPhys]; omega)]
    rw [foldl_store_linesOf hdr []
      (fun p hp => by
        obtain ⟨k, hk, _⟩ := hkeys p hp
        exact ⟨k, hk, hvals p hp, rfl⟩)
      hnodup]
    rw [List.nil_append, dctSet_append_of_lookup_none hnone]

/-! ## Behaviour when the continuation scan runs past the buffer -/

theorem kvlm_parse_trunc_indexError {k v : Bytes} (dct : Kvlm) (fuel : Nat)
    (hk : k ≠ []) (hk32 : 32 ∉ k) (hk10 : 10 ∉ k) (hv10 : 10 ∉ v) :
    kvlm_parse (k ++ 32 :: (v ++ [10])) 0 dct (fuel + 2) = .indexError := by
  set raw := k ++ 32 :: (v ++ [10]) with hraw
  have hdrop0 : raw.drop 0 = k ++ 32 :: (v ++ [10]) := by simp [hraw]
  have hspc : bfind raw 32 ((0 : Nat) : Int) = ((0 + k.length : Nat) : Int) :=
    bfind_first hdrop0 hk32
  have hnl : bfind raw 10 ((0 : Nat) : Int) =
      ((0 + (k ++ 32 :: v).length : Nat) : Int) := by
    apply bfind_first (A := k ++ 32 :: v) (B := [])
    · simp [hraw]
    · simp only [List.mem_append, List.mem_cons, not_or]
      exact ⟨hk10, by omega, fun h => hv10 h⟩
  have hnocond : ¬(bfind raw 32 ((0 : Nat) : Int) < 0 ∨
      bfind raw 10 ((0 : Nat) : Int) < bfind raw 32 ((0 : Nat) : Int)) := by
    rw [hspc, hnl]
    push_neg
    constructor
    · push_cast; omega
    · simp only [List.length_append, List.length_cons]
      push_cast
      omega
  have htail10 : 10 ∉ k.tail ++ 32 :: v := by
    simp only [List.mem_append, List.mem_cons, not_or]
    exact ⟨fun h => hk10 (List.mem_of_mem_tail h), by omega, fun h => hv10 h⟩
  have hdrop1 : raw.drop (0 + 1) = (k.tail ++ 32 :: v) ++ [10] := by
    obtain ⟨k0, k2, rfl⟩ : ∃ k0 k2, k = k0 :: k2 := by
      cases k with
      | nil => cases hk rfl
      | cons k0 k2 => exact ⟨k0, k2, rfl⟩
    simp [hraw]
  have hscan : scanEnd raw (fuel + 1) ((0 : Nat) : Int) = .indexError :=
    scanEnd_step_last fuel hdrop1 htail10
  simp only [kvlm_parse]
  rw [if_neg hnocond, hscan]

theorem kvlm_parse_wrap_diverges {k v w : Bytes}
    (hk : k ≠ []) (hk32 : 32 ∉ k) (hk10 : 10 ∉ k) (hv10 : 10 ∉ v) (hw10 : 10 ∉ w) :
    kvlmParseDiverges (k ++ 32 :: (v ++ 10 :: 32 :: w)) := by
  intro dct fuel
  obtain ⟨k0, k2, hkc⟩ : ∃ k0 k2, k = k0 :: k2 := by
    cases k with
    | nil => cases hk rfl
    | cons k0 k2 => exact ⟨k0, k2, rfl⟩
  have hk0 : k0 ≠ 32 := fun h => hk32 (by rw [hkc, h]; simp)
  induction fuel generalizing dct with
  | zero => rfl
  | succ fuel ih =>
    set raw := k ++ 32 :: (v ++ 10 :: 32 :: w) with hraw
    have hdrop0 : raw.drop 0 = k ++ 32 :: (v ++ 10 :: 32 :: w) := by simp [hraw]
    have hspc : bfind raw 32 ((0 : Nat) : Int) = ((0 + k.length : Nat) : Int) :=
      bfind_first hdrop0 hk32
    have hnl : bfind raw 10 ((0 : Nat) : Int) =
        ((0 + (k ++ 32 :: v).length : Nat) : Int) := by
      apply bfind_first (A := k ++ 32 :: v) (B := 32 :: w)
      · simp [hraw]
      · simp only [List.mem_append, List.mem_cons, not_or]
        exact ⟨hk10, by omega, fun h => hv10 h⟩
    have hnocond : ¬(bfind raw 32 ((0 : Nat) : Int) < 0 ∨
        bfind raw 10 ((0 : Nat) : Int) < bfind raw 32 ((0 : Nat) : Int)) := by
      rw [hspc, hnl]
      push_neg
      constructor
      · push_cast; omega
      · simp only [List.length_append, List.length_cons]
        push_cast
        omega
    have htail10 : 10 ∉ k.tail ++ 32 :: v := by
      simp only [List.mem_append, List.mem_cons, not_or]
      exact ⟨fun h => hk10 (List.mem_of_mem_tail h), by omega, fun h => hv10 h⟩
    have hscan : scanEnd raw fuel ((0 : Nat) : Int) = .outOfFuel ∨
        scanEnd raw fuel ((0 : Nat) : Int) = .ok (-1) := by
      cases fuel with
      | zero => left; rfl
      | succ f =>
        have hdrop1 : raw.drop (0 + 1) = (k.tail ++ 32 :: v) ++ 10 :: (32 :: w) := by
          rw [hkc]
          simp [hraw, hkc]
        rw [scanEnd_step_found f hdrop1 htail10 (by simp)]
        rw [if_pos (show (32 :: w).head? = some 32 from rfl)]
        cases f with
        | zero => left; rfl
        | succ f2 =>
          right
          have hlen2 : 0 + 1 + (k.tail ++ 32 :: v).length + 1 =
              (k ++ 32 :: v).length + 1 := by
            rw [hkc]
            simp
            omega
          have hnone2 : 10 ∉ raw.drop (0 + 1 + (k.tail ++ 32 :: v).length + 1) := by
            rw [hlen2]
            have hd : raw.drop ((k ++ 32 :: v).length + 1) = 32 :: w := by
              rw [show (k ++ 32 :: v).length + 1 =
                ((k ++ 32 :: v) ++ [10]).length by simp; omega, hraw]
              rw [show k ++ 32 :: (v ++ 10 :: 32 :: w) =
                ((k ++ 32 :: v) ++ [10]) ++ 32 :: w by simp]
              exact List.drop_left _ _
            rw [hd]
            simp only [List.mem_cons, not_or]
            exact ⟨by omega, fun h => hw10 h⟩
          rw [scanEnd_step_none f2 (by rw [hraw, hkc]; rfl) hnone2]
          rw [if_neg hk0]
    simp only [kvlm_parse]
    rw [if_neg hnocond]
    rcases hscan with h | h
    · rw [h]
    · rw [h]
      exact ih _

/-! ## Decimal conversion round trip -/

theorem natToDec_digits (n : Nat) : ∀ c ∈ natToDec n, 48 ≤ c ∧ c ≤ 57 := by
  induction n using Nat.strong_induction_on with
  | _ n ih =>
    rw [natToDec]
    by_cases h : n < 10
    · rw [dif_pos h]
      intro c hc
      simp only [List.mem_singleton] at hc
      subst hc
      omega
    · rw [dif_neg h]
      intro c hc
      rcases List.mem_append.mp hc with hc2 | hc2
      · exact ih (n / 10) (Nat.div_lt_self (by omega) (by omega)) c hc2
      · simp only [List.mem_singleton] at hc2
        subst hc2
        have := Nat.mod_lt n (y := 10) (by omega)
        omega

theorem natToDec_ne_nil (n : Nat) : natToDec n ≠ [] := by
  rw [natToDec]
  by_cases h : n < 10
  · rw [dif_pos h]; simp
  · rw [dif_neg h]; simp

theorem decVal_natToDec (n : Nat) : decVal (natToDec n) = n := by
  induction n using Nat.strong_induction_on with
  | _ n ih =>
    rw [natToDec]
    by_cases h : n < 10
    · rw [dif_pos h]
      simp [decVal]
    · rw [dif_neg h]
      have hstep : decVal (natToDec (n / 10) ++ [48 + n % 10]) =
          decVal (natToDec (n / 10)) * 10 + (48 + n % 10 - 48) := by
        simp [decVal, List.foldl_append]
      rw [hstep, ih (n / 10) (Nat.div_lt_self (by omega) (by omega))]
      omega

theorem dropWhile_eq_self_of_all {p : Nat → Bool} {L : Bytes}
    (h : ∀ c ∈ L, p c = false) : L.dropWhile p = L := by
  cases L with
  | nil => rfl
  | cons c r =>
    rw [List.dropWhile_cons, if_neg (by simp [h c (by simp)])]

theorem pyInt_space_digits (n : Nat) : pyInt (32 :: natToDec n) = some (n : Int) := by
  have hdig := natToDec_digits n
  have hnospace : ∀ c ∈ natToDec n, isPySpace c = false := by
    intro c hc
    have := hdig c hc
    simp [isPySpace]
    omega
  have h1 : (32 :: natToDec n).dropWhile isPySpace = natToDec n := by
    rw [List.dropWhile_cons, if_pos (by simp [isPySpace])]
    exact dropWhile_eq_self_of_all hnospace
  have h2 : (natToDec n).reverse.dropWhile isPySpace = (natToDec n).reverse :=
    dropWhile_eq_self_of_all (fun c hc => hnospace c (List.mem_reverse.mp hc))
  obtain ⟨d0, ds, hds⟩ : ∃ d0 ds, natToDec n = d0 :: ds := by
    cases hn : natToDec n with
    | nil => cases natToDec_ne_nil n hn
    | cons d0 ds => exact ⟨d0, ds, rfl⟩
  have hd0 : 48 ≤ d0 ∧ d0 ≤ 57 := hdig d0 (by rw [hds]; simp)
  have hall : (d0 :: ds).all isDecDigit = true := by
    rw [← hds]
    rw [List.all_eq_true]
    intro c hc
    have := hdig c hc
    simp [isDecDigit]
    omega
  unfold pyInt
  simp only [h1, h2, List.reverse_reverse]
  rw [hds]
  simp only []
  rw [if_neg (by omega), if_neg (by omega), if_pos hall, ← hds, decVal_natToDec]

/-! ## Frame round trip -/

theorem read_frame_frame {fmt data : Bytes} (h32 : 32 ∉ fmt) :
    read_frame (frame fmt data) = .ok (fmt, data) := by
  have hd : ∀ c ∈ natToDec data.length, 48 ≤ c ∧ c ≤ 57 :=
    fun c hc => natToDec_digits _ c hc
  have hrawe : frame fmt data = fmt ++ 32 :: (natToDec data.length ++ 0 :: data) :=
    rfl
  have hdrop0 : (frame fmt data).drop 0 =
      fmt ++ 32 :: (natToDec data.length ++ 0 :: data) := by
    rw [List.drop_zero]
    exact hrawe
  have hzn : (0 : Int) = ((0 : Nat) : Int) := by norm_num
  have hx : bfind (frame fmt data) 32 (0 : Int) = ((0 + fmt.length : Nat) : Int) := by
    rw [hzn]
    exact bfind_first hdrop0 h32
  have hfmt : pySlice (frame fmt data) (0 : Int) ((0 + fmt.length : Nat) : Int) = fmt := by
    rw [hzn, show ((0 + fmt.length : Nat) : Int) =
      ((0 : Nat) : Int) + ((fmt.length : Nat) : Int) by push_cast; ring,
      pySlice_seg, hdrop0]
    exact List.take_left fmt _
  have hdropf : (frame fmt data).drop (0 + fmt.length) =
      32 :: (natToDec data.length ++ 0 :: data) := by
    rw [show 0 + fmt.length = fmt.length by omega]
    conv_lhs => rw [hrawe]
    exact List.drop_left fmt _
  have hnotin : (0 : Nat) ∉ 32 :: natToDec data.length := by
    simp only [List.mem_cons, not_or]
    refine ⟨by omega, fun hc => ?_⟩
    have := hd 0 hc
    omega
  have hy : bfind (frame fmt data) 0 ((0 + fmt.length : Nat) : Int) =
      ((0 + fmt.length + ((natToDec data.length).length + 1) : Nat) : Int) := by
    have h9 := bfind_first (o := 0 + fmt.length)
      (A := 32 :: natToDec data.length) (B := data) (by rw [hdropf]; simp) hnotin
    simpa using h9
  have hslice : pySlice (frame fmt data) ((0 + fmt.length : Nat) : Int)
      ((0 + fmt.length + ((natToDec data.length).length + 1) : Nat) : Int) =
      32 :: natToDec data.length := by
    rw [show ((0 + fmt.length + ((natToDec data.length).length + 1) : Nat) : Int) =
      ((0 + fmt.length : Nat) : Int) + (((natToDec data.length).length + 1 : Nat) : Int) by
        push_cast; ring,
      pySlice_seg, hdropf]
    rw [show (32 : Nat) :: (natToDec data.length ++ 0 :: data) =
      (32 :: natToDec data.length) ++ 0 :: data by simp]
    rw [show (natToDec data.length).length + 1 =
      (32 :: natToDec data.length).length by simp]
    exact List.take_left _ _
  have hlen : (frame fmt data).length =
      fmt.length + 1 + (natToDec data.length).length + 1 + data.length := by
    rw [hrawe]
    simp
    omega
  have hpay : pySlice (frame fmt data)
      (((0 + fmt.length + ((natToDec data.length).length + 1) : Nat) : Int) + 1)
      (((frame fmt data).length : Nat) : Int) = data := by
    rw [show (((0 + fmt.length + ((natToDec data.length).length + 1) : Nat) : Int) + 1) =
      ((fmt.length + 1 + (natToDec data.length).length + 1 : Nat) : Int) by
        push_cast; ring,
      pySlice_to_end]
    conv_lhs => rw [hrawe]
    rw [show fmt ++ 32 :: (natToDec data.length ++ 0 :: data) =
      (fmt ++ 32 :: (natToDec data.length ++ [0])) ++ data by simp]
    rw [show fmt.length + 1 + (natToDec data.length).length + 1 =
      (fmt ++ 32 :: (natToDec data.length ++ [0])).length by simp; omega]
    exact List.drop_left _ _
  have hsize : (data.length : Int) =
      (((frame fmt data).length : Nat) : Int) -
        ((0 + fmt.length + ((natToDec data.length).length + 1) : Nat) : Int) - 1 := by
    rw [hlen]
    push_cast
    ring
  unfold read_frame
  simp only [hx, hy, hfmt, hslice, pyInt_space_digits, hpay]
  rw [if_pos hsize]

/-! ## Tree entry parsing -/

theorem tree_parse_one_five {raw : Bytes} {s : Nat} {T R : Bytes}
    (hdrop : raw.drop s = T ++ 32 :: R) (hT5 : T.length = 5) (h32 : 32 ∉ T) :
    ∃ pos path sha, tree_parse_one raw ((s : Nat) : Int) = .ok (pos, ⟨32 :: T, path, sha⟩) := by
  have hx : bfind raw 32 ((s : Nat) : Int) = ((s + T.length : Nat) : Int) :=
    bfind_first hdrop h32
  have hcond : ((s + T.length : Nat) : Int) - ((s : Nat) : Int) = 5 ∨
      ((s + T.length : Nat) : Int) - ((s : Nat) : Int) = 6 := by
    left
    rw [hT5]
    push_cast
    ring
  have hmode : pySlice raw ((s : Nat) : Int) ((s + T.length : Nat) : Int) = T := by
    rw [show ((s + T.length : Nat) : Int) =
      ((s : Nat) : Int) + ((T.length : Nat) : Int) by push_cast; ring,
      pySlice_seg, hdrop]
    exact List.take_left T _
  unfold tree_parse_one
  simp only [hx]
  rw [if_pos hcond, hmode, if_pos (by rw [hT5])]
  exact ⟨_, _, _, rfl⟩

/-! ## Byte-string order and the canonical tree sort -/

theorem bytesLe_total (a : Bytes) : ∀ b, bytesLe a b = true ∨ bytesLe b a = true := by
  induction a with
  | nil => intro b; left; rfl
  | cons x as ih =>
    intro b
    cases b with
    | nil => right; rfl
    | cons y bs =>
      rcases Nat.lt_trichotomy x y with h | h | h
      · left
        simp only [bytesLe]
        rw [if_pos h]
      · subst h
        rcases ih bs with h2 | h2
        · left
          simp only [bytesLe]
          rw [if_neg (lt_irrefl x), if_neg (lt_irrefl x)]
          exact h2
        · right
          simp only [bytesLe]
          rw [if_neg (lt_irrefl x), if_neg (lt_irrefl x)]
          exact h2
      · right
        simp only [bytesLe]
        rw [if_pos h]

theorem bytesLe_trans : ∀ {a b c : Bytes},
    bytesLe a b = true → bytesLe b c = true → bytesLe a c = true := by
  intro a
  induction a with
  | nil => intro b c _ _; rfl
  | cons x as ih =>
    intro b c hab hbc
    cases b with
    | nil => simp [bytesLe] at hab
    | cons y bs =>
      cases c with
      | nil => simp [bytesLe] at hbc
      | cons z cs =>
        simp only [bytesLe] at hab hbc ⊢
        by_cases hxy : x < y
        · have hyz : y < z ∨ y = z := by
            by_contra hcon
            push_neg at hcon
            have hzy : z < y := by omega
            rw [if_neg (by omega), if_pos hzy] at hbc
            cases hbc
          have hxz : x < z := by omega
          rw [if_pos hxz]
        · rw [if_neg hxy] at hab
          by_cases hyx : y < x
          · rw [if_pos hyx] at hab
            cases hab
          · rw [if_neg hyx] at hab
            have hxy2 : x = y := by omega
            subst hxy2
            by_cases hxz : x < z
            · rw [if_pos hxz]
            · rw [if_neg hxz] at hbc ⊢
              by_cases hzx : z < x
              · rw [if_pos hzx] at hbc
                cases hbc
              · rw [if_neg hzx] at hbc ⊢
                exact ih hab hbc

theorem bytesLe_antisymm : ∀ {a b : Bytes},
    bytesLe a b = true → bytesLe b a = true → a = b := by
  intro a
  induction a with
  | nil =>
    intro b _ hba
    cases b with
    | nil => rfl
    | cons y bs => simp [bytesLe] at hba
  | cons x as ih =>
    intro b hab hba
    cases b with
    | nil => simp [bytesLe] at hab
    | cons y bs =>
      simp only [bytesLe] at hab hba
      by_cases hxy : x < y
      · rw [if_neg (show ¬y < x by omega), if_pos hxy] at hba
        simp at hba
      · by_cases hyx : y < x
        · rw [if_pos hyx] at hab
          simp at hab
          omega
        · have : x = y := by omega
          subst this
          rw [if_neg hxy, if_neg hxy] at hab hba
          rw [ih hab hba]

instance : IsTotal GitTreeLeaf leafLe :=
  ⟨fun _ _ => bytesLe_total _ _⟩

instance : IsTrans GitTreeLeaf leafLe :=
  ⟨fun _ _ _ => bytesLe_trans⟩

theorem eq_of_sorted_perm_nodupkeys :
    ∀ (l1 l2 : List GitTreeLeaf), l1.Perm l2 →
      l1.Sorted leafLe → l2.Sorted leafLe →
      (l1.map tree_leaf_sort_key).Nodup → l1 = l2 := by
  intro l1
  induction l1 with
  | nil =>
    intro l2 hp _ _ _
    exact (List.Perm.eq_nil hp.symm).symm
  | cons a t1 ih =>
    intro l2 hp hs1 hs2 hnd
    cases l2 with
    | nil => simpa using List.Perm.eq_nil hp
    | cons b t2 =>
      by_cases hab : a = b
      · subst hab
        have ht : t1.Perm t2 := (List.perm_cons a).mp hp
        simp only [List.map_cons, List.nodup_cons] at hnd
        rw [ih t2 ht hs1.of_cons hs2.of_cons hnd.2]
      · exfalso
        have hbmem : b ∈ t1 := by
          have hm : b ∈ a :: t1 := hp.symm.subset (by simp)
          rcases List.mem_cons.mp hm with h | h
          · exact absurd h.symm hab
          · exact h
        have hamem : a ∈ t2 := by
          have hm : a ∈ b :: t2 := hp.subset (by simp)
          rcases List.mem_cons.mp hm with h | h
          · exact absurd h hab
          · exact h
        have h1 : leafLe a b := List.rel_of_sorted_cons hs1 b hbmem
        have h2 : leafLe b a := List.rel_of_sorted_cons hs2 a hamem
        have hkey : tree_leaf_sort_key a = tree_leaf_sort_key b :=
          bytesLe_antisymm h1 h2
        simp only [List.map_cons, List.nodup_cons] at hnd
        exact hnd.1 (hkey ▸ List.mem_map.mpr ⟨b, hbmem, rfl⟩)

theorem sortKey_inj {a b : GitTreeLeaf} (ha : 47 ∉ a.path) (hb : 47 ∉ b.path)
    (h : tree_leaf_sort_key a = tree_leaf_sort_key b) : a.path = b.path := by
  unfold tree_leaf_sort_key at h
  by_cases h1 : a.mode.take 2 = [49, 48] <;> by_cases h2 : b.mode.take 2 = [49, 48]
  · rw [if_pos h1, if_pos h2] at h
    exact h
  · rw [if_pos h1, if_neg h2] at h
    exact absurd (h ▸ (by simp : (47 : Nat) ∈ b.path ++ [47])) ha
  · rw [if_neg h1, if_pos h2] at h
    exact absurd (h.symm ▸ (by simp : (47 : Nat) ∈ a.path ++ [47])) hb
  · rw [if_neg h1, if_neg h2] at h
    exact List.append_cancel_right h

theorem sortKey_nodup {items : List GitTreeLeaf}
    (hsl : ∀ leaf ∈ items, 47 ∉ leaf.path)
    (hnd : (items.map GitTreeLeaf.path).Nodup) :
    (items.map tree_leaf_sort_key).Nodup := by
  have h1 : List.Pairwise (fun a b : GitTreeLeaf => a.path ≠ b.path) items :=
    List.pairwise_map.mp hnd
  have h2 : List.Pairwise
      (fun a b : GitTreeLeaf => tree_leaf_sort_key a ≠ tree_leaf_sort_key b) items := by
    apply List.Pairwise.imp_of_mem _ h1
    intro a b ha hb hne hkeyeq
    exact hne (sortKey_inj (hsl a ha) (hsl b hb) hkeyeq)
  exact List.pairwise_map.mpr h2

theorem tree_serialize_perm_eq {l1 l2 : List GitTreeLeaf}
    (hperm : l1.Perm l2)
    (hsl : ∀ leaf ∈ l1, 47 ∉ leaf.path)
    (hnd : (l1.map GitTreeLeaf.path).Nodup) :
    tree_serialize l1 = tree_serialize l2 := by
  unfold tree_serialize
  congr 1
  apply eq_of_sorted_perm_nodupkeys
  · exact (List.perm_insertionSort leafLe l1).trans
      (hperm.trans (List.perm_insertionSort leafLe l2).symm)
  · exact List.sorted_insertionSort leafLe l1
  · exact List.sorted_insertionSort leafLe l2
  · have hp : List.Perm ((List.insertionSort leafLe l1).map tree_leaf_sort_key)
        (l1.map tree_leaf_sort_key) := (List.perm_insertionSort leafLe l1).map _
    exact hp.nodup_iff.mpr (sortKey_nodup hsl hnd)

/-! ## Store lemmas -/

theorem storeLookup_none_countP {st : Store} {p : Bytes × Bytes}
    (h : storeLookup st p = none) :
    st.countP (fun en => en.1 = p) = 0 := by
  induction st with
  | nil => rfl
  | cons en rest ih =>
    obtain ⟨q, c⟩ := en
    by_cases hq : q = p
    · simp [storeLookup, hq] at h
    · simp only [storeLookup, if_neg hq] at h
      rw [List.countP_cons]
      simp [hq, ih h]

theorem storeLookup_isSome_countP_pos {st : Store} {p : Bytes × Bytes}
    (h : (storeLookup st p).isSome = true) :
    0 < st.countP (fun en => en.1 = p) := by
  induction st with
  | nil => simp [storeLookup] at h
  | cons en rest ih =>
    obtain ⟨q, c⟩ := en
    by_cases hq : q = p
    · rw [List.countP_cons]
      simp [hq]
    · simp only [storeLookup, if_neg hq] at h
      rw [List.countP_cons]
      exact Nat.lt_of_lt_of_le (ih h) (Nat.le_add_right _ _)

theorem storeLookup_append_self (st : Store) (p : Bytes × Bytes) (c : Bytes)
    (h : storeLookup st p = none) :
    storeLookup (st ++ [(p, c)]) p = some c := by
  induction st with
  | nil => simp [storeLookup]
  | cons en rest ih =>
    obtain ⟨q, d⟩ := en
    by_cases hq : q = p
    · simp [storeLookup, hq] at h
    · simp only [storeLookup, if_neg hq] at h
      simp only [List.cons_append, storeLookup, if_neg hq]
      exact ih h

theorem storeLookup_append_other (st : Store) (p : Bytes × Bytes) (c : Bytes)
    {q : Bytes × Bytes} (hq : q ≠ p) :
    storeLookup (st ++ [(p, c)]) q = storeLookup st q := by
  induction st with
  | nil =>
    simp only [List.nil_append, storeLookup]
    rw [if_neg (fun h : p = q => hq h.symm)]
  | cons en rest ih =>
    obtain ⟨r, d⟩ := en
    by_cases hr : r = q
    · simp [storeLookup, hr]
    · simp only [List.cons_append, storeLookup, if_neg hr]
      exact ih

/-! ## Claim theorems -/

/-- C1: the specification promises `hashObject(rawBytes, typeTag)` returns
the 40-character hex ObjectId of the framed bytes, purely. The source's
`object_hash` (line 215) calls `object_write`, a name never defined in the
module (the writer is `write_object`), so every invocation raises
`NameError` instead of returning an id — shown here for the blob and tag
type tags, for which nothing can fail earlier (a `tag` constructor call
even raises `NameError` on its own, since `GitTag` is also undefined). -/
theorem wyag_c1_object_hash_nameError (data : Bytes) (repo : Option Store)
    (fuel : Nat) :
    object_hash data blobTag repo fuel = .error .nameError ∧
    object_hash data tagTag repo fuel = .error .nameError :=
  ⟨rfl, rfl⟩

/-- C2, counterexample: for the mapping `{"a": "b"}` with message `"m"`,
`kvlm_serialize` appends a final newline after the message (line 602) but
`kvlm_parse` keeps everything after the blank line (line 553), so the
round trip returns the message with one extra newline — not the original
mapping. -/
theorem wyag_c2_counterexample :
    kvlm_serialize [(some [97], .one [98]), (none, .one [109])] =
      .ok [97, 32, 98, 10, 10, 109, 10] ∧
    kvlm_parse [97, 32, 98, 10, 10, 109, 10] 0 [] 20 =
      .ok [(some [97], .one [98]), (none, .one [109, 10])] ∧
    PRes.ok [(some [97], KvVal.one [98]), (none, KvVal.one [109, 10])] ≠
      PRes.ok [(some [97], KvVal.one [98]), (none, KvVal.one [109])] := by
  refine ⟨rfl, rfl, ?_⟩
  decide

/-- C2, amended: for every KVLM built without `None`/empty keys in the
header section (keys nonempty without space or newline bytes, no
duplicate key slots, list values only for repeated keys, the message slot
present), `kvlm_parse (kvlm_serialize x)` returns `x` with key order,
multiplicity and continuation folding all preserved, except that exactly
one newline byte is appended to the message field. -/
theorem wyag_c2_roundtrip_amended (hdr : Kvlm) (m : Bytes) (fuel : Nat)
    (hkeys : ∀ p ∈ hdr, ∃ k, p.1 = some k ∧ goodKey k)
    (hvals : ∀ p ∈ hdr, wfVal p.2)
    (hnodup : (hdr.map Prod.fst).Nodup)
    (hfuel : (serHeaders hdr).length + 2 ≤ fuel) :
    ∃ s, kvlm_serialize (hdr ++ [(none, .one m)]) = .ok s ∧
      kvlm_parse s 0 [] fuel = .ok (hdr ++ [(none, .one (m ++ [10]))]) := by
  obtain ⟨h1, h2⟩ := kvlm_roundtrip_aux hdr m fuel hkeys hvals hnodup hfuel
  exact ⟨_, h1, h2⟩

theorem wyag_c2_witness :
    ∃ s, kvlm_serialize [(some [97], .one [98]), (none, .one [109])] = .ok s ∧
      kvlm_parse s 0 [] 10 =
        .ok [(some [97], .one [98]), (none, .one ([109] ++ [10]))] :=
  wyag_c2_roundtrip_amended [(some [97], .one [98])] [109] 10
    (by
      intro p hp
      simp only [List.mem_singleton] at hp
      subst hp
      exact ⟨[97], rfl, by decide, by decide, by decide⟩)
    (by
      intro p hp
      simp only [List.mem_singleton] at hp
      subst hp
      exact trivial)
    (by decide)
    (by decide)

/-- C3, counterexample: parsing a tree entry whose mode token is the five
digits `40000` stores the 6-byte mode `b" 40000"` — the prefixed byte is
an ASCII space (0x20, line 452), not the digit zero (0x30) the claim
asserts. -/
theorem wyag_c3_counterexample :
    tree_parse_one ([52, 48, 48, 48, 48, 32, 97, 0] ++ List.replicate 20 0) 0 =
      .ok (28, ⟨[32, 52, 48, 48, 48, 48], [97], List.replicate 40 48⟩) ∧
    ([32, 52, 48, 48, 48, 48] : Bytes) ≠ 48 :: [52, 48, 48, 48, 48] := by
  refine ⟨rfl, ?_⟩
  decide

/-- C3, amended: for every tree entry whose mode token is exactly 5 ASCII
digits, `tree_parse_one` stores a 6-byte mode obtained by prefixing an
ASCII space byte (0x20) — not a zero digit — to the 5-digit mode. -/
theorem wyag_c3_five_digit_mode_amended {raw : Bytes} {s : Nat} {T R : Bytes}
    (hdrop : raw.drop s = T ++ 32 :: R) (hT5 : T.length = 5) (h32 : 32 ∉ T)
    (_hdig : ∀ c ∈ T, isDecDigit c = true) :
    ∃ pos path sha,
      tree_parse_one raw ((s : Nat) : Int) = .ok (pos, ⟨32 :: T, path, sha⟩) :=
  tree_parse_one_five hdrop hT5 h32

theorem wyag_c3_witness :
    ∃ pos path sha,
      tree_parse_one ([52, 48, 48, 48, 48, 32, 97, 0] ++ List.replicate 20 0)
        (((0 : Nat) : Nat) : Int) =
        .ok (pos, ⟨32 :: [52, 48, 48, 48, 48], path, sha⟩) :=
  wyag_c3_five_digit_mode_amended (s := 0) (T := [52, 48, 48, 48, 48])
    (R := [97, 0] ++ List.replicate 20 0) (by decide) (by decide) (by decide)
    (by decide)

/-- C4, counterexample: the sort key appends `'/'` for every mode that
does not start with the regular-file prefix `b'10'`, not only for
tree-type modes: a symlink entry (mode `120000`) is also compared as
`path + "/"`, where the claim (and `specTreeSortKey`, stating the claim's
rule) gives the bare path. -/
theorem wyag_c4_counterexample :
    tree_leaf_sort_key ⟨[49, 50, 48, 48, 48, 48], [97], List.replicate 40 48⟩ =
      [97, 47] ∧
    specTreeSortKey ⟨[49, 50, 48, 48, 48, 48], [97], List.replicate 40 48⟩ =
      [97] ∧
    ([97, 47] : Bytes) ≠ [97] := by
  refine ⟨rfl, rfl, ?_⟩
  decide

/-- C4, amended: `tree_serialize` sorts by `tree_leaf_sort_key`, which
appends `'/'` to the path exactly when the mode does not begin with the
regular-file prefix `10` (directories, symlinks and submodules alike);
for entry sequences with pairwise-distinct, separator-free paths the
serialized bytes are identical for every insertion order. -/
theorem wyag_c4_canonical_amended {l1 l2 : List GitTreeLeaf}
    (hperm : l1.Perm l2)
    (hslash : ∀ leaf ∈ l1, 47 ∉ leaf.path)
    (hnd : (l1.map GitTreeLeaf.path).Nodup) :
    tree_serialize l1 = tree_serialize l2 :=
  tree_serialize_perm_eq hperm hslash hnd

theorem wyag_c4_witness :
    tree_serialize
        [⟨[49, 48, 48, 54, 52, 52], [98, 46, 116, 120, 116], List.replicate 40 48⟩,
         ⟨[52, 48, 48, 48, 48], [97], List.replicate 40 48⟩] =
      tree_serialize
        [⟨[52, 48, 48, 48, 48], [97], List.replicate 40 48⟩,
         ⟨[49, 48, 48, 54, 52, 52], [98, 46, 116, 120, 116], List.replicate 40 48⟩] :=
  wyag_c4_canonical_amended (by decide) (by decide) (by decide)

/-- C5, counterexample: on the input `b"k v\n w"` the continuation scan
runs past the end of the buffer (`find` returns `-1`), the value is cut
at `raw[spc+1:-1]` and parsing restarts at offset `end+1 = 0`; the call
never returns and never raises — it does not fail with a parse error as
the claim requires. -/
theorem wyag_c5_counterexample :
    kvlmParseDiverges [107, 32, 118, 10, 32, 119] :=
  kvlm_parse_wrap_diverges (k := [107]) (v := [118]) (w := [119])
    (by decide) (by decide) (by decide) (by decide) (by decide)

/-- C5, amended: when the continuation scan runs past the buffer end,
two different things happen. If the scan's newline is the buffer's final
byte, the guard `raw[end+1]` raises a fatal `IndexError` that aborts
decoding. But if the scan finds no further newline, `find` returns `-1`,
the guard wraps around to `raw[0]`, the value is silently truncated at
the buffer's last byte, and parsing restarts at offset 0 — the call
diverges (runs out of every fuel bound) instead of failing. -/
theorem wyag_c5_scan_overrun_amended {k v w : Bytes} (dct : Kvlm) (fuel : Nat)
    (hk : k ≠ []) (hk32 : 32 ∉ k) (hk10 : 10 ∉ k) (hv10 : 10 ∉ v)
    (hw10 : 10 ∉ w) :
    kvlm_parse (k ++ 32 :: (v ++ [10])) 0 dct (fuel + 2) = .indexError ∧
    kvlmParseDiverges (k ++ 32 :: (v ++ 10 :: 32 :: w)) :=
  ⟨kvlm_parse_trunc_indexError dct fuel hk hk32 hk10 hv10,
   kvlm_parse_wrap_diverges hk hk32 hk10 hv10 hw10⟩

theorem wyag_c5_witness :
    kvlm_parse ([107] ++ 32 :: ([118] ++ [10])) 0 [] (3 + 2) = .indexError ∧
    kvlmParseDiverges ([107] ++ 32 :: ([118] ++ 10 :: 32 :: [119])) :=
  wyag_c5_scan_overrun_amended [] 3 (by decide) (by decide) (by decide)
    (by decide) (by decide)

theorem dctLookup_append_left {d1 : Kvlm} {k : Option Bytes} {v : KvVal}
    (h : dctLookup d1 k = some v) (d2 : Kvlm) :
    dctLookup (d1 ++ d2) k = some v := by
  induction d1 with
  | nil => cases h
  | cons p rest ih =>
    obtain ⟨k2, w⟩ := p
    by_cases hk : k2 = k
    · simp only [dctLookup, if_pos hk] at h
      simp only [List.cons_append, dctLookup, if_pos hk]
      exact h
    · simp only [dctLookup, if_neg hk] at h
      simp only [List.cons_append, dctLookup, if_neg hk]
      exact ih h

/-- C6: for every payload `b` and type tag among `blob`, `commit`, `tree`
and `tag`, decoding the frame `<t> SP <decimal length> NUL <b>` built by
`write_object` (line 387) with the frame-decoding steps of `object_read`
(lines 362-369, 380) recovers exactly the tag and the payload. -/
theorem wyag_c6_frame_roundtrip (t b : Bytes)
    (ht : t = blobTag ∨ t = commitTag ∨ t = treeTag ∨ t = tagTag) :
    read_frame (frame t b) = .ok (t, b) := by
  rcases ht with rfl | rfl | rfl | rfl <;>
    exact read_frame_frame (by decide)

theorem wyag_c6_witness :
    read_frame (frame blobTag [1, 2, 3]) = .ok (blobTag, [1, 2, 3]) :=
  wyag_c6_frame_roundtrip blobTag [1, 2, 3] (Or.inl rfl)

/-- C7: when a header key `k` occurs twice (stored as `many [v1, v2]`),
`kvlm_serialize` emits two separate physical `k`-lines, adjacent and in
stored order, and parsing the serialized bytes stores `k` as the ordered
two-element list `[v1, v2]` in first-encounter order — the second value
never overwrites the first. -/
theorem wyag_c7_duplicate_keys (pre post : Kvlm) (k v1 v2 m : Bytes) (fuel : Nat)
    (hkeys : ∀ p ∈ pre ++ (some k, KvVal.many [v1, v2]) :: post,
      ∃ k2, p.1 = some k2 ∧ goodKey k2)
    (hvals : ∀ p ∈ pre ++ (some k, KvVal.many [v1, v2]) :: post, wfVal p.2)
    (hnodup : ((pre ++ (some k, KvVal.many [v1, v2]) :: post).map Prod.fst).Nodup)
    (hfuel : (serHeaders (pre ++ (some k, KvVal.many [v1, v2]) :: post)).length + 2 ≤
      fuel) :
    serHeaders (pre ++ (some k, KvVal.many [v1, v2]) :: post) =
      serHeaders pre ++ (serLine k v1 ++ (serLine k v2 ++ serHeaders post)) ∧
    kvlm_serialize ((pre ++ (some k, KvVal.many [v1, v2]) :: post) ++
        [(none, .one m)]) =
      .ok (serHeaders (pre ++ (some k, KvVal.many [v1, v2]) :: post) ++
        10 :: (m ++ [10])) ∧
    kvlm_parse (serHeaders (pre ++ (some k, KvVal.many [v1, v2]) :: post) ++
        10 :: (m ++ [10])) 0 [] fuel =
      .ok ((pre ++ (some k, KvVal.many [v1, v2]) :: post) ++
        [(none, .one (m ++ [10]))]) ∧
    dctLookup ((pre ++ (some k, KvVal.many [v1, v2]) :: post) ++
        [(none, .one (m ++ [10]))]) (some k) = some (.many [v1, v2]) := by
  obtain ⟨h1, h2⟩ := kvlm_roundtrip_aux _ m fuel hkeys hvals hnodup hfuel
  refine ⟨?_, h1, h2, ?_⟩
  · rw [serHeaders_append, serHeaders]
    simp [serLines, valList]
  · have hpre : dctLookup pre (some k) = none := by
      apply dctLookup_none_of_keys
      intro p hp hcon
      have h3 : some k ∈ pre.map Prod.fst := List.mem_map.mpr ⟨p, hp, hcon⟩
      rw [List.map_append, List.map_cons] at hnodup
      obtain ⟨-, -, hdisj⟩ := List.nodup_append.mp hnodup
      exact hdisj h3 (by simp)
    apply dctLookup_append_left
    rw [dctLookup_append_right hpre]
    simp [dctLookup]

theorem wyag_c7_witness :
    serHeaders ([] ++ (some [112], KvVal.many [[80], [81]]) :: []) =
      serHeaders [] ++ (serLine [112] [80] ++ (serLine [112] [81] ++ serHeaders [])) ∧
    kvlm_serialize (([] ++ (some [112], KvVal.many [[80], [81]]) :: []) ++
        [(none, .one [109])]) =
      .ok (serHeaders ([] ++ (some [112], KvVal.many [[80], [81]]) :: []) ++
        10 :: ([109] ++ [10])) ∧
    kvlm_parse (serHeaders ([] ++ (some [112], KvVal.many [[80], [81]]) :: []) ++
        10 :: ([109] ++ [10])) 0 [] 20 =
      .ok (([] ++ (some [112], KvVal.many [[80], [81]]) :: []) ++
        [(none, .one ([109] ++ [10]))]) ∧
    dctLookup (([] ++ (some [112], KvVal.many [[80], [81]]) :: []) ++
        [(none, .one ([109] ++ [10]))]) (some [112]) = some (.many [[80], [81]]) :=
  wyag_c7_duplicate_keys [] [] [112] [80] [81] [109] 20
    (by
      intro p hp
      simp only [List.nil_append, List.mem_singleton] at hp
      subst hp
      exact ⟨[112], rfl, by decide, by decide, by decide⟩)
    (by
      intro p hp
      simp only [List.nil_append, List.mem_singleton] at hp
      subst hp
      exact Nat.le.refl)
    (by decide)
    (by decide)

/-- C8: writing an object twice never errors (given the object serializes,
which every object except a message-less commit does), returns the same id
both times, leaves exactly one file at the derived shard path
`<hexid[0:2]>/<hexid[2:40]>`, the second write returns the store
unchanged (it does not rewrite the file), and no other path is touched.
The store is assumed wellformed: at most one file per path, as on a real
filesystem. -/
theorem wyag_c8_write_idempotent (sha1hex compress : Bytes → Bytes)
    (obj : GitObj) (st : Store) (data : Bytes)
    (hser : obj.serialize = .ok data)
    (hwf : st.countP (fun en => en.1 = shardPath (sha1hex (frame obj.fmt data))) ≤ 1) :
    ∃ st1,
      write_object sha1hex compress obj (some st) =
        .ok (some st1, sha1hex (frame obj.fmt data)) ∧
      write_object sha1hex compress obj (some st1) =
        .ok (some st1, sha1hex (frame obj.fmt data)) ∧
      st1.countP (fun en => en.1 = shardPath (sha1hex (frame obj.fmt data))) = 1 ∧
      ∀ q, q ≠ shardPath (sha1hex (frame obj.fmt data)) →
        storeLookup st1 q = storeLookup st q := by
  unfold write_object
  rw [hser]
  simp only []
  by_cases hex : (storeLookup st (shardPath (sha1hex (frame obj.fmt data)))).isSome
  · refine ⟨st, ?_, ?_, ?_, fun q _ => rfl⟩
    · rw [if_pos hex]
    · rw [if_pos hex]
    · have := storeLookup_isSome_countP_pos hex
      omega
  · have hnone : storeLookup st (shardPath (sha1hex (frame obj.fmt data))) = none := by
      rcases h : storeLookup st (shardPath (sha1hex (frame obj.fmt data))) with _ | c
      · rfl
      · rw [h] at hex
        simp at hex
    refine ⟨st ++ [(shardPath (sha1hex (frame obj.fmt data)),
      compress (frame obj.fmt data))], ?_, ?_, ?_, ?_⟩
    · rw [if_neg hex]
    · rw [if_pos (by rw [storeLookup_append_self st _ _ hnone]; rfl)]
    · rw [List.countP_append, storeLookup_none_countP hnone]
      simp
    · intro q hq
      exact storeLookup_append_other st _ _ hq

theorem wyag_c8_witness :
    ∃ st1,
      write_object (fun _ => List.replicate 40 48) (fun b => b)
          (.blob [1]) (some []) =
        .ok (some st1, (fun _ : Bytes => List.replicate 40 48)
          (frame (GitObj.blob [1]).fmt [1])) ∧
      write_object (fun _ => List.replicate 40 48) (fun b => b)
          (.blob [1]) (some st1) =
        .ok (some st1, (fun _ : Bytes => List.replicate 40 48)
          (frame (GitObj.blob [1]).fmt [1])) ∧
      st1.countP (fun en => en.1 = shardPath ((fun _ : Bytes => List.replicate 40 48)
        (frame (GitObj.blob [1]).fmt [1]))) = 1 ∧
      ∀ q, q ≠ shardPath ((fun _ : Bytes => List.replicate 40 48)
          (frame (GitObj.blob [1]).fmt [1])) →
        storeLookup st1 q = storeLookup ([] : Store) q :=
  wyag_c8_write_idempotent (fun _ => List.replicate 40 48) (fun b => b)
    (.blob [1]) [] [1] rfl (by decide)

/-- C9, counterexample: in a store whose shard directory for the id does
not exist (e.g. a freshly initialized repository), `repo_file` with
`mkdir=False` returns `None` and `os.path.isfile(None)` on line 355
raises an uncaught `TypeError` — `object_read` does not return the
NotFound outcome for this absent id. -/
theorem wyag_c9_counterexample :
    object_read (fun b => b) [] [] (List.replicate 40 48) 0 =
      .error .typeError ∧
    (Except.error Err.typeError : Except Err (Option GitObj)) ≠ .ok none := by
  refine ⟨rfl, ?_⟩
  intro h
  cases h

/-- C9, amended: when the id's shard directory exists but the sharded
file is absent, `object_read` returns `None` (the NotFound outcome,
modelled `.ok none`) before anything is opened, decompressed or parsed,
so no parse or framing error can be raised; but when the shard directory
itself is absent, `repo_file` (`mkdir=False`) returns `None` and line 355
raises an uncaught `TypeError` instead of signalling NotFound. -/
theorem wyag_c9_read_absent_amended (decompress : Bytes → Bytes)
    (dirs : List Bytes) (st : Store) (sha : Bytes) (fuel : Nat)
    (habs : storeLookup st (shardPath sha) = none) :
    ((shardPath sha).1 ∈ dirs →
      object_read decompress dirs st sha fuel = .ok none) ∧
    ((shardPath sha).1 ∉ dirs →
      object_read decompress dirs st sha fuel = .error .typeError) := by
  constructor
  · intro hdir
    unfold object_read
    rw [if_neg (by simp [hdir]), habs]
  · intro hdir
    unfold object_read
    rw [if_pos hdir]

theorem wyag_c9_witness :
    ((shardPath (List.replicate 40 48)).1 ∈ [[48, 48]] →
      object_read (fun b => b) [[48, 48]] [] (List.replicate 40 48) 0 =
        .ok none) ∧
    ((shardPath (List.replicate 40 48)).1 ∉ [[48, 48]] →
      object_read (fun b => b) [[48, 48]] [] (List.replicate 40 48) 0 =
        .error .typeError) :=
  wyag_c9_read_absent_amended (fun b => b) [[48, 48]] [] (List.replicate 40 48)
    0 rfl

/-- C10: `kvlm_serialize` is defined only on mappings containing the
distinguished `None` message slot: for every mapping lacking it —
including the empty kvlm of `GitCommit()` built with no data
(`init`, line 422) — the lookup `kvlm[None]` on line 602 raises
`KeyError` and no bytes are produced. -/
theorem wyag_c10_serialize_missing_message (x : Kvlm)
    (h : dctLookup x none = Option.none) :
    kvlm_serialize x = .error .keyError ∧
    kvlm_serialize GitCommit_init_kvlm = .error .keyError := by
  constructor
  · unfold kvlm_serialize
    rw [h]
  · rfl

theorem wyag_c10_witness :
    kvlm_serialize [(some [97], KvVal.one [98])] = .error .keyError ∧
    kvlm_serialize GitCommit_init_kvlm = .error .keyError :=
  wyag_c10_serialize_missing_message [(some [97], KvVal.one [98])] (by decide)
